import Mathlib

/-!
Verification of the dt5742 waveform converter/analyzer core.

The development shallowly embeds the C++ sources:
  * `waveform_math.cpp` (window resolution, baseline/noise, peak search,
    charge integration, charge-fraction / CFD / leading-edge timing,
    `AnalyzeWaveform`), and
  * the binary ingestion paths of `wave_converter` (`ConvertBinaryToRoot`
    and `ConvertBinaryToRootParallel`), modelled at the level of decoded
    per-channel records (the byte-level readers `ReadHeader` /
    `ReadChannelChunk` deliver exactly such records).

C++ `float`/`double` arithmetic is embedded in exact rational arithmetic ℚ;
`std::sqrt` is embedded by `ratSqrt`, which is exact on perfect squares.
C++ `int` indices are embedded as ℤ where the sign can matter, with the
same clamping expressions as the source.  Division by zero in ℚ yields 0
(the source never divides by zero on the paths characterised below except
through guarded epsilon comparisons, which are reproduced verbatim).
-/

set_option maxHeartbeats 1000000
set_option linter.unnecessarySeqFocus false
set_option linter.unusedVariables false

namespace DT5742

/-- List indexing with C++ `operator[]` semantics for a signed index;
out-of-range reads (never exercised on guarded paths) give 0. -/
def qAt (l : List ℚ) (i : ℤ) : ℚ :=
  if 0 ≤ i then l.getD i.toNat 0 else 0

/-- The epsilon `1e-9f` used by the guards in `waveform_math.cpp`. -/
def EPS : ℚ := 1 / 1000000000

/-- Exact-arithmetic stand-in for `std::sqrt`: exact whenever numerator and
denominator are perfect squares (all concrete inputs used below), and some
non-negative rational otherwise.  No theorem below depends on its values. -/
def ratSqrt (q : ℚ) : ℚ :=
  if q ≤ 0 then 0 else (Nat.sqrt q.num.toNat : ℚ) / (Nat.sqrt q.den : ℚ)

/-- `[a, b)` as a list of integers (empty when `b ≤ a`). -/
def intRangeIco (a b : ℤ) : List ℤ :=
  (List.range (b - a).toNat).map (fun k : ℕ => a + (k : ℤ))

/-- `struct WindowIndices` (fields `start`/`end`; `end` is a Lean keyword,
renamed `endIdx`). -/
structure WindowIndices where
  start : ℤ := 0
  endIdx : ℤ := 0
deriving Repr, DecidableEq

/-- `struct ThresholdCrossing`. -/
structure ThresholdCrossing where
  time : ℚ := 0
  jitter : ℚ := 0
  found : Bool := false
deriving Repr, DecidableEq

/-- `struct BaselineNoiseMetrics`. -/
structure BaselineNoiseMetrics where
  baseline : ℚ := 0
  rms_noise : ℚ := 0
  noise1_point : ℚ := 0
  amp_min : ℚ := 0
  amp_max : ℚ := 0
deriving Repr, DecidableEq

/-- `struct PeakMetrics`. -/
structure PeakMetrics where
  amplitude : ℚ := 0
  index : ℤ := 0
  time : ℚ := 0
deriving Repr, DecidableEq

/-- `struct WaveformFeatures`. -/
structure WaveformFeatures where
  baseline : ℚ := 0
  rmsNoise : ℚ := 0
  noise1Point : ℚ := 0
  ampMinBefore : ℚ := 0
  ampMaxBefore : ℚ := 0
  hasSignal : Bool := false
  ampMax : ℚ := 0
  charge : ℚ := 0
  signalOverNoise : ℚ := 0
  peakTime : ℚ := 0
  riseTime : ℚ := 0
  slewRate : ℚ := 0
  timeCFD : List ℚ := []
  jitterCFD : List ℚ := []
  timeLE : List ℚ := []
  jitterLE : List ℚ := []
  totLE : List ℚ := []
  timeCharge : List ℚ := []
deriving Repr, DecidableEq

/-- `Interpolate` (anonymous namespace of `waveform_math.cpp`). -/
def Interpolate (x1 y1 x2 y2 yTarget : ℚ) : ℚ :=
  if |y2 - y1| < EPS then x1
  else x1 + (x2 - x1) / (y2 - y1) * (yTarget - y1)

/-- Loop body of `FindTimeIndex`: first index (counting from `i`) whose
time value is at or above `threshold`. -/
def findTimeIndexAux (threshold : ℚ) : List ℚ → ℕ → Option ℕ
  | [], _ => none
  | t :: rest, i => if threshold ≤ t then some i else findTimeIndexAux threshold rest (i + 1)

/-- `FindTimeIndex`: first index with `time[i] >= threshold`, else `n - 1`. -/
def FindTimeIndex (time : List ℚ) (threshold : ℚ) : ℤ :=
  match findTimeIndexAux threshold time 0 with
  | some i => (i : ℤ)
  | none => (time.length : ℤ) - 1

/-- `BuildWindowIndices`. -/
def BuildWindowIndices (time : List ℚ) (region_min region_max : ℚ)
    (analysis_start analysis_end : ℤ) : WindowIndices :=
  if time.isEmpty then {} else
    let start_idx := FindTimeIndex time region_min
    let end_idx := FindTimeIndex time region_max
    let n : ℤ := time.length
    let s := max 0 (min (max start_idx analysis_start) (n - 1))
    { start := s, endIdx := max s (min (min end_idx analysis_end) (n - 1)) }

/-! ### Characterisation of `FindTimeIndex` -/

/-- Spec-side predicate: `j` is the index `FindTimeIndex` is documented to
return — the least index whose time value is `≥ θ`, or `n - 1` when no
index qualifies. -/
def IsFirstGE (time : List ℚ) (θ : ℚ) (j : ℤ) : Prop :=
  (∃ k : ℕ, (k : ℤ) = j ∧ k < time.length ∧ θ ≤ qAt time k ∧
    ∀ m : ℕ, m < k → qAt time m < θ) ∨
  ((∀ k : ℕ, k < time.length → qAt time k < θ) ∧ j = (time.length : ℤ) - 1)

theorem findTimeIndexAux_none (θ : ℚ) :
    ∀ (l : List ℚ) (i : ℕ), findTimeIndexAux θ l i = none →
      ∀ k : ℕ, k < l.length → l.getD k 0 < θ := by
  intro l
  induction l with
  | nil => intro i _ k hk; simp at hk
  | cons t rest ih =>
    intro i h k hk
    by_cases ht : θ ≤ t
    · simp [findTimeIndexAux, ht] at h
    · simp only [findTimeIndexAux, if_neg ht] at h
      cases k with
      | zero => simpa using lt_of_not_le ht
      | succ m =>
        simp only [List.length_cons, Nat.succ_lt_succ_iff] at hk
        simpa using ih (i + 1) h m hk

theorem findTimeIndexAux_some (θ : ℚ) :
    ∀ (l : List ℚ) (i j : ℕ), findTimeIndexAux θ l i = some j →
      i ≤ j ∧ j - i < l.length ∧ θ ≤ l.getD (j - i) 0 ∧
        ∀ m : ℕ, m < j - i → l.getD m 0 < θ := by
  intro l
  induction l with
  | nil => intro i j h; simp [findTimeIndexAux] at h
  | cons t rest ih =>
    intro i j h
    by_cases ht : θ ≤ t
    · simp [findTimeIndexAux, ht] at h
      subst h
      refine ⟨le_refl _, by simp, by simpa, ?_⟩
      intro m hm; omega
    · simp only [findTimeIndexAux, if_neg ht] at h
      obtain ⟨h1, h2, h3, h4⟩ := ih (i + 1) j h
      refine ⟨by omega, by simp; omega, ?_, ?_⟩
      · have : j - i = (j - (i + 1)) + 1 := by omega
        rw [this]; simpa using h3
      · intro m hm
        cases m with
        | zero => simpa using lt_of_not_le ht
        | succ m2 =>
          have : m2 < j - (i + 1) := by omega
          simpa using h4 m2 this

/-- `FindTimeIndex` satisfies the least-index specification. -/
theorem findTimeIndex_isFirstGE (time : List ℚ) (θ : ℚ) :
    IsFirstGE time θ (FindTimeIndex time θ) := by
  unfold FindTimeIndex
  cases h : findTimeIndexAux θ time 0 with
  | none =>
    right
    refine ⟨?_, rfl⟩
    intro k hk
    have := findTimeIndexAux_none θ time 0 h k hk
    simpa [qAt] using this
  | some j =>
    left
    obtain ⟨h1, h2, h3, h4⟩ := findTimeIndexAux_some θ time 0 j h
    refine ⟨j, rfl, by simpa using h2, by simpa [qAt] using h3, ?_⟩
    intro m hm
    have := h4 m (by omega)
    simpa [qAt] using this

/-! ### C10: window-index bounds invariant -/

/-- C10: for every non-empty time axis and arbitrary window and analysis
arguments, `BuildWindowIndices` returns `0 ≤ start ≤ end ≤ n - 1`, so every
downstream loop indexing a resolved window stays in bounds. -/
theorem buildWindowIndices_bounds (time : List ℚ) (rmin rmax : ℚ)
    (astart aend : ℤ) (h : time ≠ []) :
    0 ≤ (BuildWindowIndices time rmin rmax astart aend).start ∧
    (BuildWindowIndices time rmin rmax astart aend).start ≤
      (BuildWindowIndices time rmin rmax astart aend).endIdx ∧
    (BuildWindowIndices time rmin rmax astart aend).endIdx ≤ (time.length : ℤ) - 1 := by
  have hne : ¬ time.isEmpty := by simpa using h
  have hlen : 1 ≤ (time.length : ℤ) := by
    have : 0 < time.length := List.length_pos.mpr h
    exact_mod_cast this
  unfold BuildWindowIndices
  simp only [if_neg hne]
  refine ⟨?_, ?_, ?_⟩ <;> simp <;> omega

/-- Witness for C10 at a concrete input. -/
theorem buildWindowIndices_bounds_witness :
    0 ≤ (BuildWindowIndices [0, 1, 2, 3] 1 (5/2) 0 3).start ∧
    (BuildWindowIndices [0, 1, 2, 3] 1 (5/2) 0 3).start ≤
      (BuildWindowIndices [0, 1, 2, 3] 1 (5/2) 0 3).endIdx ∧
    (BuildWindowIndices [0, 1, 2, 3] 1 (5/2) 0 3).endIdx ≤
      (([0, 1, 2, 3] : List ℚ).length : ℤ) - 1 :=
  buildWindowIndices_bounds [0, 1, 2, 3] 1 (5/2) 0 3 (by decide)

/-! ### C3: window resolution -/

/-- C3 counterexample: on `time = [0,2,4,6]` with window max `3` (and a
non-restricting analysis window), the returned `end` index is 2, whose time
value exceeds the window max, although index 1 has time value `≤ 3`; so
`end` is not "the last index with `time[end] <= window-max`". -/
theorem buildWindowIndices_end_counterexample :
    (BuildWindowIndices [0, 2, 4, 6] 0 3 0 3).endIdx = 2 ∧
    ¬ (qAt [0, 2, 4, 6] 2 ≤ 3) ∧ qAt [0, 2, 4, 6] 1 ≤ 3 := by
  refine ⟨by decide, by decide, by decide⟩

/-- C3 amended: both the start and the end index come from the same
forward scan `FindTimeIndex` — each is the first (least) index whose time
value is `≥` the respective window bound (or `n-1` when none is); the start
is then clipped below by `analysis_start` and into `[0, n-1]`, and the end
is clipped above by `analysis_end` and `n-1` and below by the resolved
start. -/
theorem buildWindowIndices_resolution (time : List ℚ) (rmin rmax : ℚ)
    (astart aend : ℤ) (h : time ≠ []) :
    ∃ s0 e0 : ℤ, IsFirstGE time rmin s0 ∧ IsFirstGE time rmax e0 ∧
      (BuildWindowIndices time rmin rmax astart aend).start
        = max 0 (min (max s0 astart) ((time.length : ℤ) - 1)) ∧
      (BuildWindowIndices time rmin rmax astart aend).endIdx
        = max (BuildWindowIndices time rmin rmax astart aend).start
            (min (min e0 aend) ((time.length : ℤ) - 1)) := by
  have hne : ¬ time.isEmpty := by simpa using h
  refine ⟨FindTimeIndex time rmin, FindTimeIndex time rmax,
    findTimeIndex_isFirstGE time rmin, findTimeIndex_isFirstGE time rmax, ?_, ?_⟩ <;>
    simp [BuildWindowIndices, hne]

/-- Witness for the amended C3 at a concrete input. -/
theorem buildWindowIndices_resolution_witness :
    (([0, 2, 4, 6] : List ℚ) ≠ []) ∧
    (∃ s0 e0 : ℤ, IsFirstGE [0, 2, 4, 6] 1 s0 ∧ IsFirstGE [0, 2, 4, 6] 5 e0 ∧
      (BuildWindowIndices [0, 2, 4, 6] 1 5 0 3).start
        = max 0 (min (max s0 0) ((([0, 2, 4, 6] : List ℚ).length : ℤ) - 1)) ∧
      (BuildWindowIndices [0, 2, 4, 6] 1 5 0 3).endIdx
        = max (BuildWindowIndices [0, 2, 4, 6] 1 5 0 3).start
            (min (min e0 3) ((([0, 2, 4, 6] : List ℚ).length : ℤ) - 1))) :=
  ⟨by decide, buildWindowIndices_resolution [0, 2, 4, 6] 1 5 0 3 (by decide)⟩

/-! ### C5: charge integration -/

/-- `IntegrateChargeWindow`: half-open Riemann sum over the clipped window. -/
def IntegrateChargeWindow (ampCorr : List ℚ) (w : WindowIndices)
    (dt impedance : ℚ) : ℚ :=
  if ampCorr.isEmpty then 0
  else ((intRangeIco (max 0 w.start) (min w.endIdx ((ampCorr.length : ℤ) - 1))).map
    (fun i => qAt ampCorr i * dt / impedance)).sum

theorem intRangeIco_map_sum_aux (f : ℤ → ℚ) (a : ℤ) :
    ∀ n : ℕ, ((List.range n).map (fun k : ℕ => f (a + (k : ℤ)))).sum
      = ∑ i ∈ Finset.Ico a (a + (n : ℤ)), f i := by
  intro n
  induction n with
  | zero => simp
  | succ m ih =>
    rw [List.range_succ, List.map_append, List.sum_append, ih]
    have hle : a ≤ a + (m : ℤ) := by omega
    have h2 : a + (((m : ℕ) + 1 : ℕ) : ℤ) = (a + (m : ℤ)) + 1 := by push_cast; ring
    have hins : Finset.Ico a ((a + (m : ℤ)) + 1)
        = insert (a + (m : ℤ)) (Finset.Ico a (a + (m : ℤ))) := by
      ext x
      simp only [Finset.mem_Ico, Finset.mem_insert]
      omega
    rw [h2, hins, Finset.sum_insert (by simp)]
    simp only [List.map_cons, List.map_nil, List.sum_cons, List.sum_nil, add_zero]
    ring

theorem intRangeIco_map_sum (f : ℤ → ℚ) (a b : ℤ) :
    ((intRangeIco a b).map f).sum = ∑ i ∈ Finset.Ico a b, f i := by
  unfold intRangeIco
  rw [List.map_map]
  by_cases hab : a < b
  · have hb : a + (((b - a).toNat : ℕ) : ℤ) = b := by omega
    have haux := intRangeIco_map_sum_aux f a ((b - a).toNat)
    rw [hb] at haux
    simpa [Function.comp] using haux
  · have h0 : (b - a).toNat = 0 := by omega
    have hico : Finset.Ico a b = ∅ := Finset.Ico_eq_empty (by omega)
    simp [h0, hico]

/-- C5: the returned charge is the half-open Riemann sum
`Σ_{start ≤ i < end} ampCorr[i] * dt / impedance` — the resolved window's
last sample is excluded. -/
theorem integrateChargeWindow_halfOpen (ampCorr : List ℚ) (w : WindowIndices)
    (dt impedance : ℚ) (h0 : 0 ≤ w.start)
    (h1 : w.endIdx ≤ (ampCorr.length : ℤ) - 1) :
    IntegrateChargeWindow ampCorr w dt impedance
      = ∑ i ∈ Finset.Ico w.start w.endIdx, qAt ampCorr i * dt / impedance := by
  unfold IntegrateChargeWindow
  by_cases he : ampCorr.isEmpty
  · have hlen : ampCorr.length = 0 := by simpa [List.isEmpty_iff_length_eq_zero] using he
    have : Finset.Ico w.start w.endIdx = ∅ := by
      apply Finset.Ico_eq_empty
      rw [hlen] at h1
      omega
    simp [he, this]
  · have hs : max 0 w.start = w.start := by omega
    have hend : min w.endIdx ((ampCorr.length : ℤ) - 1) = w.endIdx := by omega
    rw [if_neg he, hs, hend, intRangeIco_map_sum]

/-- Witness for C5 at a concrete input. -/
theorem integrateChargeWindow_halfOpen_witness :
    (0 ≤ (⟨1, 3⟩ : WindowIndices).start) ∧
    ((⟨1, 3⟩ : WindowIndices).endIdx ≤ (([2, 4, 6, 8] : List ℚ).length : ℤ) - 1) ∧
    IntegrateChargeWindow [2, 4, 6, 8] ⟨1, 3⟩ 1 2
      = ∑ i ∈ Finset.Ico (1 : ℤ) 3, qAt [2, 4, 6, 8] i * 1 / 2 :=
  ⟨by decide, by decide,
    integrateChargeWindow_halfOpen [2, 4, 6, 8] ⟨1, 3⟩ 1 2 (by decide) (by decide)⟩

/-! ### C1: pedestal correction (serial and parallel converter paths) -/

/-- Pedestal of one channel, serial path (`ConvertBinaryToRoot`): sum of the
first `nPed = min(nsamples, max(1, pedestal_window))` raw samples divided by
`nPed`. -/
def serialPedestal (pedestalWindow : ℤ) (raw : List ℚ) : ℚ :=
  let pedWindow : ℤ := max 1 pedestalWindow
  let nPed : ℤ := min (raw.length : ℤ) pedWindow
  (raw.take nPed.toNat).sum / (nPed : ℚ)

/-- Pedestal of one channel, parallel path (`ConvertBinaryToRootParallel`):
identical except the divisor is `max(1, nPed)`. -/
def parallelPedestal (pedestalWindow : ℤ) (raw : List ℚ) : ℚ :=
  let pedWindow : ℤ := max 1 pedestalWindow
  let nPed : ℤ := min (raw.length : ℤ) pedWindow
  (raw.take nPed.toNat).sum / ((max 1 nPed : ℤ) : ℚ)

/-- In the exact-arithmetic model the two pedestal computations agree (for
an empty sample array the serial path divides zero by zero, which ℚ reads
as 0, matching the parallel path's 0/1). -/
theorem serialPedestal_eq_parallelPedestal (pw : ℤ) (raw : List ℚ) :
    serialPedestal pw raw = parallelPedestal pw raw := by
  unfold serialPedestal parallelPedestal
  rcases raw with _ | ⟨x, xs⟩
  · simp
  · have h1 : (1 : ℤ) ≤ min ((x :: xs).length : ℤ) (max 1 pw) := by
      simp [List.length_cons]
    have : max 1 (min ((x :: xs).length : ℤ) (max 1 pw))
        = min ((x :: xs).length : ℤ) (max 1 pw) := by omega
    simp only [this]

/-- The `ped` (pedestal-corrected) array of one channel: in-range samples are
shifted by `target − pedestal`, the padded tail `[nsamples, maxSamples)` is
exactly `target` (loops at lines 404-411 / 753-760 of the converter). -/
def pedCorrect (samples : List ℚ) (p target : ℚ) (maxS : ℕ) : List ℚ :=
  (samples.take maxS).map (fun x => x - p + target) ++
    List.replicate (maxS - samples.length) target

theorem sum_map_add_const (l : List ℚ) (c : ℚ) :
    (l.map (fun x => x + c)).sum = l.sum + (l.length : ℚ) * c := by
  induction l with
  | nil => simp
  | cons x xs ih =>
    simp [ih]
    ring

/-- C1: pedestal-correction postcondition.  With `1 ≤ pedestal_window ≤ n`
and `n ≤ M`: the pedestal is the arithmetic mean of the first
`pedestal_window` raw samples (and the serial and parallel paths agree);
the corrected array has length `M`, equals `raw[i] − pedestal + target`
in range, equals `target` exactly on the padded tail, and the mean of
`corrected[0:pedestal_window]` is exactly `target`. -/
theorem pedestal_correction (pw : ℤ) (raw : List ℚ) (target : ℚ) (M : ℕ)
    (h1 : 1 ≤ pw) (h2 : pw ≤ (raw.length : ℤ)) (h3 : raw.length ≤ M) :
    serialPedestal pw raw = (raw.take pw.toNat).sum / (pw : ℚ) ∧
    serialPedestal pw raw = parallelPedestal pw raw ∧
    (pedCorrect raw (serialPedestal pw raw) target M).length = M ∧
    (∀ i : ℕ, i < raw.length →
      (pedCorrect raw (serialPedestal pw raw) target M).getD i 0
        = raw.getD i 0 - serialPedestal pw raw + target) ∧
    (∀ i : ℕ, raw.length ≤ i → i < M →
      (pedCorrect raw (serialPedestal pw raw) target M).getD i 0 = target) ∧
    ((pedCorrect raw (serialPedestal pw raw) target M).take pw.toNat).sum
      / (pw : ℚ) = target := by
  have hmin : min ((raw.length : ℤ)) (max 1 pw) = pw := by omega
  have hped : serialPedestal pw raw = (raw.take pw.toNat).sum / (pw : ℚ) := by
    unfold serialPedestal
    simp only [hmin]
  have htake : raw.take M = raw := List.take_of_length_le h3
  set p := serialPedestal pw raw with hp
  have hcorr : pedCorrect raw p target M
      = raw.map (fun x => x - p + target) ++ List.replicate (M - raw.length) target := by
    unfold pedCorrect
    rw [htake]
  refine ⟨hped, serialPedestal_eq_parallelPedestal pw raw, ?_, ?_, ?_, ?_⟩
  · rw [hcorr]
    simp
    omega
  · intro i hi
    rw [hcorr]
    have hlt : i < (raw.map (fun x => x - p + target)).length := by simpa using hi
    rw [List.getD_append _ _ _ _ hlt]
    have : (raw.map (fun x => x - p + target)).getD i 0
        = (fun x => x - p + target) (raw.getD i 0) := by
      rcases List.getElem?_eq_some_iff.mpr ⟨hi, rfl⟩ with _
      simp [List.getD_eq_getElem?_getD, List.getElem?_map,
        List.getElem?_eq_getElem hi]
    simpa using this
  · intro i hi him
    rw [hcorr]
    have hlen : (raw.map (fun x => x - p + target)).length = raw.length := by simp
    have hge : (raw.map (fun x => x - p + target)).length ≤ i := by omega
    rw [List.getD_eq_getElem?_getD, List.getElem?_append_right hge]
    have : i - raw.length < M - raw.length := by omega
    simp [hlen, List.getElem?_replicate, this]
  · -- mean of the first pedestal_window corrected samples is exactly target
    have hpwn : pw.toNat ≤ raw.length := by omega
    have htk : (pedCorrect raw p target M).take pw.toNat
        = (raw.take pw.toNat).map (fun x => x - p + target) := by
      rw [hcorr]
      rw [List.take_append_of_le_length (by simpa using hpwn)]
      rw [List.map_take]
    rw [htk]
    have hlen2 : (raw.take pw.toNat).length = pw.toNat := by
      simp [hpwn]
    have hsum : ((raw.take pw.toNat).map (fun x => x - p + target)).sum
        = (raw.take pw.toNat).sum + (pw.toNat : ℚ) * (target - p) := by
      have := sum_map_add_const (raw.take pw.toNat) (target - p)
      calc ((raw.take pw.toNat).map (fun x => x - p + target)).sum
          = ((raw.take pw.toNat).map (fun x => x + (target - p))).sum := by
            congr 1
            apply List.map_congr_left
            intro x _
            ring
        _ = (raw.take pw.toNat).sum + ((raw.take pw.toNat).length : ℚ) * (target - p) := this
        _ = (raw.take pw.toNat).sum + (pw.toNat : ℚ) * (target - p) := by rw [hlen2]
    rw [hsum, hped]
    have hpw0 : (pw : ℚ) ≠ 0 := by
      have : (0 : ℤ) < pw := by omega
      exact_mod_cast ne_of_gt (by exact_mod_cast this : (0:ℚ) < (pw : ℚ))
    have hcast : ((pw.toNat : ℕ) : ℚ) = (pw : ℚ) := by
      have : ((pw.toNat : ℕ) : ℤ) = pw := by omega
      exact_mod_cast this
    rw [hcast]
    field_simp

/-- Witness for C1 at a concrete input. -/
theorem pedestal_correction_witness :
    ((1 : ℤ) ≤ 2 ∧ (2 : ℤ) ≤ (([1, 3] : List ℚ).length : ℤ) ∧
      ([1, 3] : List ℚ).length ≤ 4) ∧
    ((pedCorrect [1, 3] (serialPedestal 2 [1, 3]) 5 4).take (2 : ℤ).toNat).sum
      / ((2 : ℤ) : ℚ) = 5 :=
  ⟨⟨by decide, by decide, by decide⟩,
    (pedestal_correction 2 [1, 3] 5 4 (by decide) (by decide) (by decide)).2.2.2.2.2⟩

/-! ### Remaining `waveform_math.cpp` functions -/

/-- `[a, b]` as a list of integers (empty when `b < a`). -/
def intRangeIcc (a b : ℤ) : List ℤ := intRangeIco a (b + 1)

/-- `ComputeBaselineAndNoise`.  `rms_noise` goes through `ratSqrt` (the
stand-in for `std::sqrt`). -/
def ComputeBaselineAndNoise (amp : List ℚ) (w : WindowIndices) : BaselineNoiseMetrics :=
  let base : BaselineNoiseMetrics := { amp_min := 100000, amp_max := -100000 }
  if amp.isEmpty then base
  else
    let n : ℤ := amp.length
    let idxs := intRangeIcc (max 0 w.start) (min w.endIdx (n - 1))
    let npoint : ℕ := idxs.length
    let baseline : ℚ :=
      if 0 < npoint then (idxs.map (fun i => qAt amp i)).sum / (npoint : ℚ) else 0
    let amp_min := idxs.foldl (fun m i => min m (qAt amp i)) 100000
    let amp_max := idxs.foldl (fun m i => max m (qAt amp i)) (-100000)
    let rms : ℚ :=
      if 0 < npoint then
        ratSqrt (((idxs.map (fun i => (qAt amp i - baseline) * (qAt amp i - baseline))).sum)
          / (npoint : ℚ))
      else 0
    let mov : ℤ → ℚ := fun i =>
      let s1 := (if 0 < i then qAt amp (i - 1) else 0) + qAt amp i +
        (if i + 1 < n then qAt amp (i + 1) else 0)
      let c1 : ℚ := (if 0 < i then 1 else 0) + 1 + (if i + 1 < n then 1 else 0)
      s1 / c1
    let noise1 : ℚ :=
      if 0 < npoint then (idxs.map (fun i => mov i - baseline)).sum / (npoint : ℚ) else 0
    { baseline := baseline, rms_noise := rms, noise1_point := noise1,
      amp_min := amp_min, amp_max := amp_max }

/-- `ApplyBaselineAndPolarity`. -/
def ApplyBaselineAndPolarity (amp : List ℚ) (baseline : ℚ) (polarity : ℤ) : List ℚ :=
  amp.map (fun x => (x - baseline) * (polarity : ℚ))

/-- `FindPeakInWindow`: maximum of `ampCorr` over the clipped window with a
strict comparison against the 0-initialised running amplitude. -/
def FindPeakInWindow (ampCorr time : List ℚ) (w : WindowIndices) : PeakMetrics :=
  if ampCorr.isEmpty ∨ time.length ≠ ampCorr.length then {} else
    let n : ℤ := ampCorr.length
    let start : ℤ := max 0 w.start
    let stop : ℤ := min w.endIdx (n - 1)
    let p := (intRangeIcc start stop).foldl
      (fun (pk : PeakMetrics) (i : ℤ) => if pk.amplitude < qAt ampCorr i then
          { amplitude := qAt ampCorr i, index := i, time := 0 } else pk)
      ({ amplitude := 0, index := start, time := 0 } : PeakMetrics)
    { p with time := qAt time p.index }

/-- Loop body of `ComputeChargeFractionTimes`: running charge sum with the
sequential (one threshold per sample, ascending `chth`) matching. -/
def chargeFracAux (ampCorr time : List ℚ) (dt imp : ℚ) (chThs : List ℚ)
    (cmin cmax : ℚ) : List ℤ → ℚ → ℕ → List ℚ → List ℚ
  | [], _, _, tc => tc
  | i :: rest, chargetemp, chth, tc =>
    let c := chargetemp + qAt ampCorr i * dt / imp
    if chth < chThs.length ∧ chThs.getD chth 0 < c then
      let tc2 :=
        if 0 < i then
          let prev := c - qAt ampCorr i * dt / imp
          let tchg := Interpolate (qAt time (i - 1)) prev (qAt time i) c (chThs.getD chth 0)
          if cmin ≤ tchg ∧ tchg ≤ cmax then tc.set chth tchg else tc
        else tc
      if chth + 1 = chThs.length then tc2
      else chargeFracAux ampCorr time dt imp chThs cmin cmax rest c (chth + 1) tc2
    else chargeFracAux ampCorr time dt imp chThs cmin cmax rest c chth tc

/-- `ComputeChargeFractionTimes`. -/
def ComputeChargeFractionTimes (ampCorr time : List ℚ) (w : WindowIndices)
    (dt imp total : ℚ) (thresholdsPercent : List ℤ) (cmin cmax : ℚ) : List ℚ :=
  let tc := List.replicate thresholdsPercent.length (10 : ℚ)
  if ampCorr.isEmpty ∨ time.length ≠ ampCorr.length then tc else
    let n : ℤ := ampCorr.length
    let chThs := thresholdsPercent.map (fun t : ℤ => total * (t : ℚ) / 100)
    chargeFracAux ampCorr time dt imp chThs cmin cmax
      (intRangeIco (max 0 w.start) (min w.endIdx (n - 1))) 0 0 tc

/-- `FindThresholdCrossingBackward`: scan from `min(from_idx, n-1)` down to
`max(0, stop_idx) + 1`, breaking at the first (i.e. largest) index whose
amplitude is below the threshold; the crossing is materialised only when the
successor index is in bounds. -/
def FindThresholdCrossingBackward (ampCorr time : List ℚ) (from_idx stop_idx : ℤ)
    (threshold rms_noise : ℚ) : ThresholdCrossing :=
  if ampCorr.isEmpty ∨ time.length ≠ ampCorr.length then {} else
    let n : ℤ := ampCorr.length
    let start := min from_idx (n - 1)
    let stop := max 0 stop_idx
    match (intRangeIco (stop + 1) (start + 1)).reverse.find?
        (fun i => decide (qAt ampCorr i < threshold)) with
    | none => {}
    | some i =>
      if i + 1 < n then
        let slew := (qAt ampCorr (i + 1) - qAt ampCorr i) / (qAt time (i + 1) - qAt time i)
        { time := Interpolate (qAt time i) (qAt ampCorr i)
            (qAt time (i + 1)) (qAt ampCorr (i + 1)) threshold,
          jitter := if EPS < |slew| then rms_noise / |slew| else 0,
          found := true }
      else {}

/-- `FindTrailingEdgeForward`: scan from `max(1, from_idx)` up to
`min(stop_idx, n-1) - 1`, breaking at the first index whose amplitude is
below the threshold. -/
def FindTrailingEdgeForward (ampCorr time : List ℚ) (from_idx stop_idx : ℤ)
    (threshold : ℚ) : ThresholdCrossing :=
  if ampCorr.isEmpty ∨ time.length ≠ ampCorr.length then {} else
    let n : ℤ := ampCorr.length
    let start := max 1 from_idx
    let stop := min stop_idx (n - 1)
    match (intRangeIco start stop).find?
        (fun i => decide (qAt ampCorr i < threshold)) with
    | none => {}
    | some i =>
      { time := Interpolate (qAt time (i - 1)) (qAt ampCorr (i - 1))
          (qAt time i) (qAt ampCorr i) threshold,
        jitter := 0, found := true }

/-- `struct AnalysisConfig` (the fields `AnalyzeWaveform` reads). -/
structure AnalysisConfig where
  analysis_region_min : List ℚ := []
  analysis_region_max : List ℚ := []
  baseline_region_min : List ℚ := []
  baseline_region_max : List ℚ := []
  signal_region_min : List ℚ := []
  signal_region_max : List ℚ := []
  charge_region_min : List ℚ := []
  charge_region_max : List ℚ := []
  signal_polarity : List ℤ := []
  snr_threshold : ℚ := 3
  cfd_thresholds : List ℤ := [10, 20, 30, 50]
  le_thresholds : List ℚ := [10, 20, 50]
  charge_thresholds : List ℤ := [10, 20, 50]
  rise_time_low : ℚ := 1/10
  rise_time_high : ℚ := 9/10
  cut_amp_max : List ℚ := []
  impedance : ℚ := 50
deriving Repr, DecidableEq

/-! Named intermediate values of `AnalyzeWaveform` (one definition per local
variable of the C++ body, used both by `AnalyzeWaveform` itself and by the
theorems about it). -/

/-- `dT` of `AnalyzeWaveform`. -/
def awDT (amp time : List ℚ) : ℚ :=
  if 1 < amp.length then qAt time 1 - qAt time 0 else 1/5

/-- `analysis_window.start`: forward scan for the first index with
`time[i] >= analysisMin`, defaulting to 0. -/
def awAnalysisStart (time : List ℚ) (aMin : ℚ) : ℤ :=
  match (List.range time.length).find? (fun i => decide (aMin ≤ time.getD i 0)) with
  | some i => (i : ℤ)
  | none => 0

/-- `analysis_window.end`: backward scan for the last index with
`time[i] <= analysisMax`, defaulting to `n - 1`. -/
def awAnalysisEnd (time : List ℚ) (aMax : ℚ) : ℤ :=
  match (List.range time.length).reverse.find? (fun i => decide (time.getD i 0 ≤ aMax)) with
  | some i => (i : ℤ)
  | none => (time.length : ℤ) - 1

def awBaselineWindow (amp time : List ℚ) (cfg : AnalysisConfig) (ch : ℕ) : WindowIndices :=
  BuildWindowIndices time (cfg.baseline_region_min.getD ch 0) (cfg.baseline_region_max.getD ch 0)
    (awAnalysisStart time (cfg.analysis_region_min.getD ch 0))
    (awAnalysisEnd time (cfg.analysis_region_max.getD ch 0))

def awMetrics (amp time : List ℚ) (cfg : AnalysisConfig) (ch : ℕ) : BaselineNoiseMetrics :=
  ComputeBaselineAndNoise amp (awBaselineWindow amp time cfg ch)

def awAmpCorr (amp time : List ℚ) (cfg : AnalysisConfig) (ch : ℕ) : List ℚ :=
  ApplyBaselineAndPolarity amp (awMetrics amp time cfg ch).baseline
    (cfg.signal_polarity.getD ch 0)

def awSignalWindow (amp time : List ℚ) (cfg : AnalysisConfig) (ch : ℕ) : WindowIndices :=
  BuildWindowIndices time (cfg.signal_region_min.getD ch 0) (cfg.signal_region_max.getD ch 0)
    (awAnalysisStart time (cfg.analysis_region_min.getD ch 0))
    (awAnalysisEnd time (cfg.analysis_region_max.getD ch 0))

def awPeak (amp time : List ℚ) (cfg : AnalysisConfig) (ch : ℕ) : PeakMetrics :=
  FindPeakInWindow (awAmpCorr amp time cfg ch) time (awSignalWindow amp time cfg ch)

def awChargeWindow (amp time : List ℚ) (cfg : AnalysisConfig) (ch : ℕ) : WindowIndices :=
  BuildWindowIndices time (cfg.charge_region_min.getD ch 0) (cfg.charge_region_max.getD ch 0)
    (awAnalysisStart time (cfg.analysis_region_min.getD ch 0))
    (awAnalysisEnd time (cfg.analysis_region_max.getD ch 0))

def awCharge (amp time : List ℚ) (cfg : AnalysisConfig) (ch : ℕ) : ℚ :=
  IntegrateChargeWindow (awAmpCorr amp time cfg ch) (awChargeWindow amp time cfg ch)
    (awDT amp time) cfg.impedance

/-- `threshold = cfg.le_thresholds[b] / 1000.0`. -/
def leThresholdAt (cfg : AnalysisConfig) (b : ℕ) : ℚ := cfg.le_thresholds.getD b 0 / 1000

/-- The leading-edge backward crossing for threshold index `b`. -/
def awLeLead (amp time : List ℚ) (cfg : AnalysisConfig) (ch b : ℕ) : ThresholdCrossing :=
  FindThresholdCrossingBackward (awAmpCorr amp time cfg ch) time
    (awPeak amp time cfg ch).index (awSignalWindow amp time cfg ch).start
    (leThresholdAt cfg b) (awMetrics amp time cfg ch).rms_noise

/-- The time-over-threshold forward (trailing) crossing for threshold index `b`. -/
def awLeTrail (amp time : List ℚ) (cfg : AnalysisConfig) (ch b : ℕ) : ThresholdCrossing :=
  FindTrailingEdgeForward (awAmpCorr amp time cfg ch) time
    (awPeak amp time cfg ch).index (awChargeWindow amp time cfg ch).endIdx
    (leThresholdAt cfg b)

/-- The CFD backward crossing for threshold index `b`
(`threshold = ampMax * (cfg.cfd_thresholds[b] / 100.0)`). -/
def awCfdCross (amp time : List ℚ) (cfg : AnalysisConfig) (ch b : ℕ) : ThresholdCrossing :=
  FindThresholdCrossingBackward (awAmpCorr amp time cfg ch) time
    (awPeak amp time cfg ch).index (awSignalWindow amp time cfg ch).start
    ((awPeak amp time cfg ch).amplitude * ((cfg.cfd_thresholds.getD b 0 : ℚ) / 100))
    (awMetrics amp time cfg ch).rms_noise

/-- `AnalyzeWaveform`. -/
def AnalyzeWaveform (amp time : List ℚ) (cfg : AnalysisConfig) (channel : ℕ) :
    WaveformFeatures :=
  if amp.isEmpty ∨ time.length ≠ amp.length then {} else
    let bm := awMetrics amp time cfg channel
    let peak := awPeak amp time cfg channel
    let signalOverNoise := if 0 < bm.rms_noise then peak.amplitude / bm.rms_noise else 0
    let hasSignal :=
      if 0 < bm.rms_noise then
        decide (cfg.snr_threshold ≤ signalOverNoise) &&
          decide (cfg.cut_amp_max.getD channel 0 ≤ peak.amplitude)
      else false
    let charge := awCharge amp time cfg channel
    let timeCharge := ComputeChargeFractionTimes (awAmpCorr amp time cfg channel) time
      (awChargeWindow amp time cfg channel) (awDT amp time) cfg.impedance charge
      cfg.charge_thresholds (cfg.charge_region_min.getD channel 0)
      (cfg.charge_region_max.getD channel 0)
    let nCFD := cfg.cfd_thresholds.length
    let timeCFD := (List.range nCFD).map (fun b =>
      let c := awCfdCross amp time cfg channel b
      if c.found then c.time else 0)
    let jitterCFD := (List.range nCFD).map (fun b =>
      let c := awCfdCross amp time cfg channel b
      if c.found then c.jitter else 0)
    let nLE := cfg.le_thresholds.length
    let timeLE := (List.range nLE).map (fun b =>
      if peak.amplitude ≤ leThresholdAt cfg b then (20 : ℚ)
      else if (awLeLead amp time cfg channel b).found then
        (awLeLead amp time cfg channel b).time else 20)
    let jitterLE := (List.range nLE).map (fun b =>
      if peak.amplitude ≤ leThresholdAt cfg b then (-5 : ℚ)
      else if (awLeLead amp time cfg channel b).found then
        (awLeLead amp time cfg channel b).jitter else -5)
    let totLE := (List.range nLE).map (fun b =>
      if peak.amplitude ≤ leThresholdAt cfg b then (-5 : ℚ)
      else if (awLeLead amp time cfg channel b).found ∧
          (awLeTrail amp time cfg channel b).found then
        (awLeTrail amp time cfg channel b).time - (awLeLead amp time cfg channel b).time
      else -5)
    let amp90 := peak.amplitude * cfg.rise_time_high
    let amp10 := peak.amplitude * cfg.rise_time_low
    let c90 := FindThresholdCrossingBackward (awAmpCorr amp time cfg channel) time
      peak.index (awSignalWindow amp time cfg channel).start amp90 bm.rms_noise
    let c10 := FindThresholdCrossingBackward (awAmpCorr amp time cfg channel) time
      peak.index (awSignalWindow amp time cfg channel).start amp10 bm.rms_noise
    let time90 := if c90.found then c90.time else 0
    let time10 := if c10.found then c10.time else 0
    let riseTime := time90 - time10
    let slewRate := if 0 < riseTime then (amp90 - amp10) / riseTime else 0
    { baseline := bm.baseline, rmsNoise := bm.rms_noise, noise1Point := bm.noise1_point,
      ampMinBefore := bm.amp_min, ampMaxBefore := bm.amp_max,
      hasSignal := hasSignal, ampMax := peak.amplitude, charge := charge,
      signalOverNoise := signalOverNoise, peakTime := peak.time,
      riseTime := riseTime, slewRate := slewRate,
      timeCFD := timeCFD, jitterCFD := jitterCFD,
      timeLE := timeLE, jitterLE := jitterLE, totLE := totLE,
      timeCharge := timeCharge }

/-! ### C8: degraded-input totality -/

/-- C8: `AnalyzeWaveform` is a total function of its inputs (the embedding
is a Lean function, so it cannot throw), and for an empty sample array or a
sample array whose length differs from the time axis it returns the
default-initialised `WaveformFeatures`, whose `hasSignal` is `false`. -/
theorem analyzeWaveform_degraded (amp time : List ℚ) (cfg : AnalysisConfig)
    (channel : ℕ) (h : amp = [] ∨ time.length ≠ amp.length) :
    AnalyzeWaveform amp time cfg channel = {} ∧
    (AnalyzeWaveform amp time cfg channel).hasSignal = false := by
  have hguard : amp.isEmpty ∨ time.length ≠ amp.length := by
    rcases h with h | h
    · left; simp [h]
    · right; exact h
  have heq : AnalyzeWaveform amp time cfg channel = {} := by
    unfold AnalyzeWaveform
    rw [if_pos hguard]
  exact ⟨heq, by rw [heq]⟩

/-- Witness for C8 at a concrete input. -/
theorem analyzeWaveform_degraded_witness :
    (([] : List ℚ) = [] ∨ ([(0 : ℚ)] : List ℚ).length ≠ ([] : List ℚ).length) ∧
    AnalyzeWaveform [] [(0 : ℚ)] {} 0 = {} ∧
    (AnalyzeWaveform [] [(0 : ℚ)] {} 0).hasSignal = false :=
  ⟨Or.inl rfl, analyzeWaveform_degraded [] [(0 : ℚ)] {} 0 (Or.inl rfl)⟩

/-! ### C6: leading-edge gating and sentinels -/

theorem getD_map_range (n : ℕ) (f : ℕ → ℚ) (b : ℕ) (hb : b < n) (d : ℚ) :
    ((List.range n).map f).getD b d = f b := by
  rw [List.getD_eq_getElem?_getD, List.getElem?_map, List.getElem?_range hb]
  rfl

/-- C6: for every leading-edge threshold index `b`, if `ampMax` does not
exceed the threshold (the crossing search is gated off) or the backward
leading search finds no crossing, the entry keeps the sentinels
`timeLE = 20`, `jitterLE = −5`, `totLE = −5`; when the search is performed
and both the leading and the forward trailing crossings are found,
`timeLE`/`jitterLE` are the leading crossing's values and
`totLE = trailingTime − leadingTime`. -/
theorem leadingEdge_gating_sentinels (amp time : List ℚ) (cfg : AnalysisConfig)
    (ch : ℕ) (h1 : amp ≠ []) (h2 : time.length = amp.length) (b : ℕ)
    (hb : b < cfg.le_thresholds.length) :
    (((awPeak amp time cfg ch).amplitude ≤ leThresholdAt cfg b ∨
        (awLeLead amp time cfg ch b).found = false) →
      (AnalyzeWaveform amp time cfg ch).timeLE.getD b 0 = 20 ∧
      (AnalyzeWaveform amp time cfg ch).jitterLE.getD b 0 = -5 ∧
      (AnalyzeWaveform amp time cfg ch).totLE.getD b 0 = -5) ∧
    (leThresholdAt cfg b < (awPeak amp time cfg ch).amplitude →
      (awLeLead amp time cfg ch b).found = true →
      (AnalyzeWaveform amp time cfg ch).timeLE.getD b 0
        = (awLeLead amp time cfg ch b).time ∧
      (AnalyzeWaveform amp time cfg ch).jitterLE.getD b 0
        = (awLeLead amp time cfg ch b).jitter ∧
      ((awLeTrail amp time cfg ch b).found = true →
        (AnalyzeWaveform amp time cfg ch).totLE.getD b 0
          = (awLeTrail amp time cfg ch b).time - (awLeLead amp time cfg ch b).time)) := by
  have hguard : ¬ (amp.isEmpty ∨ time.length ≠ amp.length) := by
    push_neg
    exact ⟨by simpa using h1, h2⟩
  have hTLE : (AnalyzeWaveform amp time cfg ch).timeLE
      = (List.range cfg.le_thresholds.length).map (fun b =>
          if (awPeak amp time cfg ch).amplitude ≤ leThresholdAt cfg b then (20 : ℚ)
          else if (awLeLead amp time cfg ch b).found then
            (awLeLead amp time cfg ch b).time else 20) := by
    unfold AnalyzeWaveform
    rw [if_neg hguard]
  have hJLE : (AnalyzeWaveform amp time cfg ch).jitterLE
      = (List.range cfg.le_thresholds.length).map (fun b =>
          if (awPeak amp time cfg ch).amplitude ≤ leThresholdAt cfg b then (-5 : ℚ)
          else if (awLeLead amp time cfg ch b).found then
            (awLeLead amp time cfg ch b).jitter else -5) := by
    unfold AnalyzeWaveform
    rw [if_neg hguard]
  have hTOT : (AnalyzeWaveform amp time cfg ch).totLE
      = (List.range cfg.le_thresholds.length).map (fun b =>
          if (awPeak amp time cfg ch).amplitude ≤ leThresholdAt cfg b then (-5 : ℚ)
          else if (awLeLead amp time cfg ch b).found ∧
              (awLeTrail amp time cfg ch b).found then
            (awLeTrail amp time cfg ch b).time - (awLeLead amp time cfg ch b).time
          else -5) := by
    unfold AnalyzeWaveform
    rw [if_neg hguard]
  rw [hTLE, hJLE, hTOT]
  rw [getD_map_range _ _ b hb, getD_map_range _ _ b hb, getD_map_range _ _ b hb]
  constructor
  · rintro (hle | hnf)
    · simp [if_pos hle]
    · by_cases hle : (awPeak amp time cfg ch).amplitude ≤ leThresholdAt cfg b
      · simp [if_pos hle]
      · simp [if_neg hle, hnf]
  · intro hgt hf
    have hle : ¬ (awPeak amp time cfg ch).amplitude ≤ leThresholdAt cfg b :=
      not_le.mpr hgt
    refine ⟨by simp [if_neg hle, hf], by simp [if_neg hle, hf], ?_⟩
    intro ht
    simp [if_neg hle, hf, ht]

/-- Witness for C6 at a concrete input. -/
theorem leadingEdge_gating_sentinels_witness :
    (([(1 : ℚ)] : List ℚ) ≠ [] ∧ ([(0 : ℚ)] : List ℚ).length = ([(1 : ℚ)] : List ℚ).length ∧
      0 < ({ le_thresholds := [1] } : AnalysisConfig).le_thresholds.length) ∧
    ((((awPeak [(1 : ℚ)] [(0 : ℚ)] { le_thresholds := [1] } 0).amplitude ≤
          leThresholdAt { le_thresholds := [1] } 0 ∨
        (awLeLead [(1 : ℚ)] [(0 : ℚ)] { le_thresholds := [1] } 0 0).found = false) →
      (AnalyzeWaveform [(1 : ℚ)] [(0 : ℚ)] { le_thresholds := [1] } 0).timeLE.getD 0 0 = 20 ∧
      (AnalyzeWaveform [(1 : ℚ)] [(0 : ℚ)] { le_thresholds := [1] } 0).jitterLE.getD 0 0 = -5 ∧
      (AnalyzeWaveform [(1 : ℚ)] [(0 : ℚ)] { le_thresholds := [1] } 0).totLE.getD 0 0 = -5) ∧
    (leThresholdAt { le_thresholds := [1] } 0 <
        (awPeak [(1 : ℚ)] [(0 : ℚ)] { le_thresholds := [1] } 0).amplitude →
      (awLeLead [(1 : ℚ)] [(0 : ℚ)] { le_thresholds := [1] } 0 0).found = true →
      (AnalyzeWaveform [(1 : ℚ)] [(0 : ℚ)] { le_thresholds := [1] } 0).timeLE.getD 0 0
        = (awLeLead [(1 : ℚ)] [(0 : ℚ)] { le_thresholds := [1] } 0 0).time ∧
      (AnalyzeWaveform [(1 : ℚ)] [(0 : ℚ)] { le_thresholds := [1] } 0).jitterLE.getD 0 0
        = (awLeLead [(1 : ℚ)] [(0 : ℚ)] { le_thresholds := [1] } 0 0).jitter ∧
      ((awLeTrail [(1 : ℚ)] [(0 : ℚ)] { le_thresholds := [1] } 0 0).found = true →
        (AnalyzeWaveform [(1 : ℚ)] [(0 : ℚ)] { le_thresholds := [1] } 0).totLE.getD 0 0
          = (awLeTrail [(1 : ℚ)] [(0 : ℚ)] { le_thresholds := [1] } 0 0).time -
            (awLeLead [(1 : ℚ)] [(0 : ℚ)] { le_thresholds := [1] } 0 0).time))) :=
  ⟨⟨by decide, by decide, by decide⟩,
    leadingEdge_gating_sentinels [(1 : ℚ)] [(0 : ℚ)] { le_thresholds := [1] } 0
      (by decide) (by decide) 0 (by decide)⟩

/-! ### C4: charge-fraction timing -/

/-- C4 counterexample.  With `ampCorr = [0,5,0]`, `time = [0,1,2]`, window
`[0,2]`, `dt = imp = 1`, `total = 10` and thresholds `[10%, 20%]`, both
levels (1 and 2) are first exceeded by the running sum at sample 1, but the
loop consumes at most one threshold per sample and exits after the window,
so the 20% entry keeps the sentinel 10 even though the claim's
interpolation for it (crossing time 2/5) lies inside the window bounds
`[0, 2]`. -/
theorem computeChargeFractionTimes_counterexample :
    ComputeChargeFractionTimes [0, 5, 0] [0, 1, 2] ⟨0, 2⟩ 1 1 10 [10, 20] 0 2
      = [1/5, 10] ∧
    (10 * ((20 : ℤ) : ℚ) / 100 < 0 + qAt [0, 5, 0] 0 * 1 / 1 + qAt [0, 5, 0] 1 * 1 / 1) ∧
    ¬ (10 * ((20 : ℤ) : ℚ) / 100 < 0 + qAt [0, 5, 0] 0 * 1 / 1) ∧
    Interpolate (qAt [0, 1, 2] 0) (0 + qAt [0, 5, 0] 0 * 1 / 1)
      (qAt [0, 1, 2] 1) (0 + qAt [0, 5, 0] 0 * 1 / 1 + qAt [0, 5, 0] 1 * 1 / 1)
      (10 * ((20 : ℤ) : ℚ) / 100) = 2/5 ∧
    ((0 : ℚ) ≤ 2/5 ∧ (2/5 : ℚ) ≤ 2) := by
  refine ⟨?_, by norm_num [qAt], by norm_num [qAt], ?_, by norm_num, by norm_num⟩
  · norm_num [ComputeChargeFractionTimes, chargeFracAux, intRangeIco, qAt,
      Interpolate, EPS, List.range_succ, List.replicate, List.set]
  · norm_num [qAt, Interpolate, EPS]

/-- The running partial charge sums: the value of `chargetemp` after each
loop sample of `ComputeChargeFractionTimes`. -/
def scanSums (ampCorr : List ℚ) (dt imp : ℚ) : ℚ → List ℤ → List ℚ
  | _, [] => []
  | c0, i :: rest =>
    let c := c0 + qAt ampCorr i * dt / imp
    c :: scanSums ampCorr dt imp c rest

theorem ite_ite_set_getD_ne (tc : List ℚ) (chth k : ℕ) (hne : chth ≠ k)
    (ci cw : Prop) [Decidable ci] [Decidable cw] (v : ℚ) :
    (if ci then (if cw then tc.set chth v else tc) else tc).getD k 0
      = tc.getD k 0 := by
  by_cases hci : ci
  · rw [if_pos hci]
    by_cases hcw : cw
    · rw [if_pos hcw, List.getD_eq_getElem?_getD, List.getElem?_set_ne hne,
        ← List.getD_eq_getElem?_getD]
    · rw [if_neg hcw]
  · rw [if_neg hci]

theorem ite_ite_set_getD0 (tc : List ℚ) (htc : 0 < tc.length)
    (ci cw : Prop) [Decidable ci] [Decidable cw] (v : ℚ) :
    (if ci then (if cw then tc.set 0 v else tc) else tc).getD 0 0
      = (if ci then (if cw then v else tc.getD 0 0) else tc.getD 0 0) := by
  by_cases hci : ci
  · rw [if_pos hci, if_pos hci]
    by_cases hcw : cw
    · rw [if_pos hcw, if_pos hcw, List.getD_eq_getElem?_getD,
        List.getElem?_set_self htc]
      rfl
    · rw [if_neg hcw, if_neg hcw]
  · rw [if_neg hci, if_neg hci]

/-- Entries below the current threshold cursor are never touched again. -/
theorem chargeFracAux_lower_stable (a t : List ℚ) (dt imp : ℚ) (chThs : List ℚ)
    (cmin cmax : ℚ) :
    ∀ (idxs : List ℤ) (c0 : ℚ) (chth k : ℕ) (tc : List ℚ), k < chth →
      (chargeFracAux a t dt imp chThs cmin cmax idxs c0 chth tc).getD k 0
        = tc.getD k 0 := by
  intro idxs
  induction idxs with
  | nil => intro c0 chth k tc hk; rfl
  | cons i rest ih =>
    intro c0 chth k tc hk
    rw [chargeFracAux]
    by_cases hcond : chth < chThs.length ∧
        chThs.getD chth 0 < c0 + qAt a i * dt / imp
    · rw [if_pos hcond]
      by_cases hlast : chth + 1 = chThs.length
      · rw [if_pos hlast]
        exact ite_ite_set_getD_ne tc chth k (by omega) _ _ _
      · rw [if_neg hlast, ih _ _ _ _ (by omega)]
        exact ite_ite_set_getD_ne tc chth k (by omega) _ _ _
    · rw [if_neg hcond]
      exact ih _ _ _ _ hk

/-- If no running sum ever exceeds the level at index `k` (with `k` at or
above the cursor), entry `k` is left untouched. -/
theorem chargeFracAux_never_exceeded (a t : List ℚ) (dt imp : ℚ) (chThs : List ℚ)
    (cmin cmax : ℚ) :
    ∀ (idxs : List ℤ) (c0 : ℚ) (chth k : ℕ) (tc : List ℚ), chth ≤ k →
      (∀ s ∈ scanSums a dt imp c0 idxs, s ≤ chThs.getD k 0) →
      (chargeFracAux a t dt imp chThs cmin cmax idxs c0 chth tc).getD k 0
        = tc.getD k 0 := by
  intro idxs
  induction idxs with
  | nil => intro c0 chth k tc hk hs; rfl
  | cons i rest ih =>
    intro c0 chth k tc hk hs
    have hsc : c0 + qAt a i * dt / imp ≤ chThs.getD k 0 := by
      apply hs
      simp [scanSums]
    have hsrest : ∀ s ∈ scanSums a dt imp (c0 + qAt a i * dt / imp) rest,
        s ≤ chThs.getD k 0 := by
      intro s hsmem
      apply hs
      simp [scanSums, hsmem]
    rw [chargeFracAux]
    by_cases hcond : chth < chThs.length ∧
        chThs.getD chth 0 < c0 + qAt a i * dt / imp
    · -- the cursor's level was exceeded, so the cursor is strictly below k
      have hchk : chth ≠ k := by
        intro he
        rw [he] at hcond
        exact absurd hcond.2 (not_lt.mpr hsc)
      rw [if_pos hcond]
      by_cases hlast : chth + 1 = chThs.length
      · rw [if_pos hlast]
        exact ite_ite_set_getD_ne tc chth k hchk _ _ _
      · rw [if_neg hlast, ih _ _ _ _ (by omega) hsrest]
        exact ite_ite_set_getD_ne tc chth k hchk _ _ _
    · rw [if_neg hcond]
      exact ih _ _ _ _ hk hsrest

/-- Before the first exceedance the cursor stays at 0 and `tc` is unchanged;
at the first exceeding sample the first threshold is interpolated. -/
theorem chargeFracAux_first_hit (a t : List ℚ) (dt imp : ℚ) (chThs : List ℚ)
    (cmin cmax : ℚ) (hlen : chThs ≠ []) :
    ∀ (idxs : List ℤ) (c0 : ℚ) (tc : List ℚ) (m : ℕ), m < idxs.length →
      (0 :ℕ) < tc.length →
      ((scanSums a dt imp c0 idxs).getD m 0 > chThs.getD 0 0) →
      (∀ l : ℕ, l < m → (scanSums a dt imp c0 idxs).getD l 0 ≤ chThs.getD 0 0) →
      (chargeFracAux a t dt imp chThs cmin cmax idxs c0 0 tc).getD 0 0
        = (if 0 < idxs.getD m 0 then
            let c := (scanSums a dt imp c0 idxs).getD m 0
            let prev := c - qAt a (idxs.getD m 0) * dt / imp
            let tchg := Interpolate (qAt t (idxs.getD m 0 - 1)) prev
              (qAt t (idxs.getD m 0)) c (chThs.getD 0 0)
            if cmin ≤ tchg ∧ tchg ≤ cmax then tchg else tc.getD 0 0
          else tc.getD 0 0) := by
  intro idxs
  induction idxs with
  | nil => intro c0 tc m hm; simp at hm
  | cons i rest ih =>
    intro c0 tc m hm htc hexc hpre
    have hc : (scanSums a dt imp c0 (i :: rest))
        = (c0 + qAt a i * dt / imp) :: scanSums a dt imp (c0 + qAt a i * dt / imp) rest := by
      rfl
    cases m with
    | zero =>
      -- the very first sample exceeds the first level
      have hx : chThs.getD 0 0 < c0 + qAt a i * dt / imp := by
        rw [hc] at hexc
        simpa using hexc
      have hcond : 0 < chThs.length ∧ chThs.getD 0 0 < c0 + qAt a i * dt / imp :=
        ⟨List.length_pos.mpr hlen, hx⟩
      rw [chargeFracAux, if_pos hcond]
      by_cases hlast : 0 + 1 = chThs.length
      · rw [if_pos hlast, hc]
        simp only [List.getD_cons_zero]
        exact ite_ite_set_getD0 tc htc _ _ _
      · rw [if_neg hlast]
        rw [chargeFracAux_lower_stable a t dt imp chThs cmin cmax rest _ 1 0 _ (by omega)]
        rw [hc]
        simp only [List.getD_cons_zero]
        exact ite_ite_set_getD0 tc htc _ _ _
    | succ m2 =>
      -- the first sample does not exceed the first level; recurse
      have hnx : c0 + qAt a i * dt / imp ≤ chThs.getD 0 0 := by
        have := hpre 0 (by omega)
        rw [hc] at this
        simpa using this
      have hcond : ¬ (0 < chThs.length ∧ chThs.getD 0 0 < c0 + qAt a i * dt / imp) := by
        rintro ⟨-, hx⟩
        exact absurd hx (not_lt.mpr hnx)
      rw [chargeFracAux, if_neg hcond]
      have hm2 : m2 < rest.length := by simpa using hm
      have hexc2 : (scanSums a dt imp (c0 + qAt a i * dt / imp) rest).getD m2 0
          > chThs.getD 0 0 := by
        rw [hc] at hexc
        simpa using hexc
      have hpre2 : ∀ l : ℕ, l < m2 →
          (scanSums a dt imp (c0 + qAt a i * dt / imp) rest).getD l 0 ≤ chThs.getD 0 0 := by
        intro l hl
        have := hpre (l + 1) (by omega)
        rw [hc] at this
        simpa using this
      rw [ih _ _ m2 hm2 htc hexc2 hpre2, hc]
      simp

/-- C4 amended: the thresholds are consumed sequentially, at most one per
loop sample.  (a) A level never exceeded by the running sum (for instance a
200% threshold) keeps the sentinel 10.0.  (b) The lowest-indexed threshold
behaves exactly as the claim says: the first loop sample at which the
running sum exceeds its level (if past index 0) triggers linear
interpolation between the previous and current `(time, runningSum)` pairs,
stored only if within `[charge_min, charge_max]`, else the 10.0 sentinel
remains.  For higher-indexed thresholds the interpolation happens at the
first exceeding sample only when all lower thresholds were consumed at
strictly earlier samples (counterexample above). -/
theorem chargeFraction_amended (ampCorr time : List ℚ) (w : WindowIndices)
    (dt imp total : ℚ) (ths : List ℤ) (cmin cmax : ℚ) :
    (∀ k : ℕ, k < ths.length →
      (∀ s ∈ scanSums ampCorr dt imp 0
          (intRangeIco (max 0 w.start) (min w.endIdx ((ampCorr.length : ℤ) - 1))),
        s ≤ total * ((ths.getD k 0 : ℤ) : ℚ) / 100) →
      (ComputeChargeFractionTimes ampCorr time w dt imp total ths cmin cmax).getD k 0
        = 10) ∧
    (¬ (ampCorr.isEmpty ∨ time.length ≠ ampCorr.length) → ths ≠ [] →
      ∀ m : ℕ,
        m < (intRangeIco (max 0 w.start) (min w.endIdx ((ampCorr.length : ℤ) - 1))).length →
        total * ((ths.getD 0 0 : ℤ) : ℚ) / 100 <
          (scanSums ampCorr dt imp 0
            (intRangeIco (max 0 w.start) (min w.endIdx ((ampCorr.length : ℤ) - 1)))).getD m 0 →
        (∀ l : ℕ, l < m →
          (scanSums ampCorr dt imp 0
            (intRangeIco (max 0 w.start) (min w.endIdx ((ampCorr.length : ℤ) - 1)))).getD l 0
            ≤ total * ((ths.getD 0 0 : ℤ) : ℚ) / 100) →
        (ComputeChargeFractionTimes ampCorr time w dt imp total ths cmin cmax).getD 0 0
          = (if 0 < (intRangeIco (max 0 w.start)
                (min w.endIdx ((ampCorr.length : ℤ) - 1))).getD m 0 then
              (if cmin ≤ Interpolate
                    (qAt time ((intRangeIco (max 0 w.start)
                      (min w.endIdx ((ampCorr.length : ℤ) - 1))).getD m 0 - 1))
                    ((scanSums ampCorr dt imp 0
                        (intRangeIco (max 0 w.start) (min w.endIdx ((ampCorr.length : ℤ) - 1)))).getD m 0
                      - qAt ampCorr ((intRangeIco (max 0 w.start)
                          (min w.endIdx ((ampCorr.length : ℤ) - 1))).getD m 0) * dt / imp)
                    (qAt time ((intRangeIco (max 0 w.start)
                      (min w.endIdx ((ampCorr.length : ℤ) - 1))).getD m 0))
                    ((scanSums ampCorr dt imp 0
                        (intRangeIco (max 0 w.start) (min w.endIdx ((ampCorr.length : ℤ) - 1)))).getD m 0)
                    (total * ((ths.getD 0 0 : ℤ) : ℚ) / 100) ∧
                  Interpolate
                    (qAt time ((intRangeIco (max 0 w.start)
                      (min w.endIdx ((ampCorr.length : ℤ) - 1))).getD m 0 - 1))
                    ((scanSums ampCorr dt imp 0
                        (intRangeIco (max 0 w.start) (min w.endIdx ((ampCorr.length : ℤ) - 1)))).getD m 0
                      - qAt ampCorr ((intRangeIco (max 0 w.start)
                          (min w.endIdx ((ampCorr.length : ℤ) - 1))).getD m 0) * dt / imp)
                    (qAt time ((intRangeIco (max 0 w.start)
                      (min w.endIdx ((ampCorr.length : ℤ) - 1))).getD m 0))
                    ((scanSums ampCorr dt imp 0
                        (intRangeIco (max 0 w.start) (min w.endIdx ((ampCorr.length : ℤ) - 1)))).getD m 0)
                    (total * ((ths.getD 0 0 : ℤ) : ℚ) / 100) ≤ cmax then
                Interpolate
                    (qAt time ((intRangeIco (max 0 w.start)
                      (min w.endIdx ((ampCorr.length : ℤ) - 1))).getD m 0 - 1))
                    ((scanSums ampCorr dt imp 0
                        (intRangeIco (max 0 w.start) (min w.endIdx ((ampCorr.length : ℤ) - 1)))).getD m 0
                      - qAt ampCorr ((intRangeIco (max 0 w.start)
                          (min w.endIdx ((ampCorr.length : ℤ) - 1))).getD m 0) * dt / imp)
                    (qAt time ((intRangeIco (max 0 w.start)
                      (min w.endIdx ((ampCorr.length : ℤ) - 1))).getD m 0))
                    ((scanSums ampCorr dt imp 0
                        (intRangeIco (max 0 w.start) (min w.endIdx ((ampCorr.length : ℤ) - 1)))).getD m 0)
                    (total * ((ths.getD 0 0 : ℤ) : ℚ) / 100)
              else 10)
            else 10)) := by
  have hchth : ∀ k : ℕ, k < ths.length →
      (ths.map (fun v : ℤ => total * (v : ℚ) / 100)).getD k 0
        = total * ((ths.getD k 0 : ℤ) : ℚ) / 100 := by
    intro k hk
    simp [List.getD_eq_getElem?_getD, List.getElem?_map, List.getElem?_eq_getElem hk]
  constructor
  · intro k hk hs
    by_cases hdeg : ampCorr.isEmpty ∨ time.length ≠ ampCorr.length
    · simp only [ComputeChargeFractionTimes]
      rw [if_pos hdeg, List.getD_eq_getElem?_getD, List.getElem?_replicate]
      simp [hk]
    · simp only [ComputeChargeFractionTimes]
      rw [if_neg hdeg]
      rw [chargeFracAux_never_exceeded ampCorr time dt imp
        (ths.map (fun v : ℤ => total * (v : ℚ) / 100)) cmin cmax
        (intRangeIco (max 0 w.start) (min w.endIdx ((ampCorr.length : ℤ) - 1)))
        0 0 k (List.replicate ths.length 10) (Nat.zero_le k)
        (by rw [hchth k hk]; exact hs)]
      rw [List.getD_eq_getElem?_getD, List.getElem?_replicate]
      simp [hk]
  · intro hdeg hths m hm hexc hpre
    simp only [ComputeChargeFractionTimes]
    rw [if_neg hdeg]
    have hchth0 : (ths.map (fun v : ℤ => total * (v : ℚ) / 100)).getD 0 0
        = total * ((ths.getD 0 0 : ℤ) : ℚ) / 100 :=
      hchth 0 (List.length_pos.mpr hths)
    have hmapne : ths.map (fun v : ℤ => total * (v : ℚ) / 100) ≠ [] := by
      simpa using hths
    have htclen : (0:ℕ) < (List.replicate ths.length (10 : ℚ)).length := by
      simpa using List.length_pos.mpr hths
    rw [chargeFracAux_first_hit ampCorr time dt imp
      (ths.map (fun v : ℤ => total * (v : ℚ) / 100)) cmin cmax hmapne
      (intRangeIco (max 0 w.start) (min w.endIdx ((ampCorr.length : ℤ) - 1)))
      0 (List.replicate ths.length 10) m hm htclen
      (by rw [hchth0]; exact hexc) (by rw [hchth0]; exact hpre)]
    have hrep : (List.replicate ths.length (10 : ℚ)).getD 0 0 = 10 := by
      rw [List.getD_eq_getElem?_getD, List.getElem?_replicate]
      simp [List.length_pos.mpr hths]
    simp only [hchth0, hrep]

/-- Witness for the amended C4: the spec's own 200% scenario — a threshold
list `[10%, 200%]` on a waveform whose total running sum never reaches the
200% level leaves entry 1 at the 10.0 sentinel. -/
theorem chargeFraction_amended_witness :
    ((1:ℕ) < ([10, 200] : List ℤ).length ∧
      (∀ s ∈ scanSums [0, 5, 0] 1 1 0
          (intRangeIco (max 0 (0:ℤ)) (min 2 ((([0, 5, 0] : List ℚ).length : ℤ) - 1))),
        s ≤ 10 * ((([10, 200] : List ℤ).getD 1 0 : ℤ) : ℚ) / 100)) ∧
    (ComputeChargeFractionTimes [0, 5, 0] [0, 1, 2] ⟨0, 2⟩ 1 1 10 [10, 200] 0 2).getD 1 0
      = 10 := by
  have hs : ∀ s ∈ scanSums [0, 5, 0] 1 1 0
      (intRangeIco (max 0 (0:ℤ)) (min 2 ((([0, 5, 0] : List ℚ).length : ℤ) - 1))),
      s ≤ 10 * ((([10, 200] : List ℤ).getD 1 0 : ℤ) : ℚ) / 100 := by
    intro s hsm
    norm_num [scanSums, intRangeIco, qAt, List.range_succ] at hsm
    rcases hsm with h | h <;> rw [h] <;> norm_num
  exact ⟨⟨by decide, hs⟩,
    (chargeFraction_amended [0, 5, 0] [0, 1, 2] ⟨0, 2⟩ 1 1 10 [10, 200] 0 2).1 1
      (by decide) hs⟩

/-! ### C7: CFD monotonicity on a rising edge -/

theorem mem_intRangeIco {a b i : ℤ} : i ∈ intRangeIco a b ↔ a ≤ i ∧ i < b := by
  unfold intRangeIco
  simp only [List.mem_map, List.mem_range]
  constructor
  · rintro ⟨k, hk, rfl⟩
    omega
  · rintro ⟨h1, h2⟩
    exact ⟨(i - a).toNat, by omega, by omega⟩

theorem pairwise_intRangeIco (a b : ℤ) : (intRangeIco a b).Pairwise (· < ·) := by
  unfold intRangeIco
  exact (List.pairwise_lt_range _).map _ (fun x y h => by omega)

/-- On a strictly descending list, `find?` (the first hit of the scan)
falsifies the predicate on every larger element of the list. -/
theorem find?_desc_larger_not (p : ℤ → Bool) :
    ∀ (l : List ℤ), l.Pairwise (· > ·) → ∀ j, l.find? p = some j →
      ∀ y ∈ l, j < y → p y = false := by
  intro l
  induction l with
  | nil => intro _ j h; simp at h
  | cons x xs ih =>
    intro hpw j hf y hy hjy
    rcases List.pairwise_cons.mp hpw with ⟨hx, hxs⟩
    by_cases hpx : p x
    · rw [List.find?_cons_of_pos _ hpx] at hf
      injection hf with hf
      subst hf
      rcases List.mem_cons.mp hy with rfl | hy2
      · omega
      · exact absurd (hx y hy2) (by omega)
    · rw [List.find?_cons_of_neg _ hpx] at hf
      rcases List.mem_cons.mp hy with rfl | hy2
      · simpa using hpx
      · exact ih hxs j hf y hy2 hjy

/-- Characterisation of the backward threshold search on a rising edge:
when some index in `(sVal, peak]` is below the threshold but the peak itself
is not, the search succeeds at the largest below-threshold index `j < peak`
and interpolates on `[j, j+1]`. -/
theorem findThresholdCrossingBackward_char (a time : List ℚ) (peak sVal : ℕ)
    (θ rms : ℚ) (ha : a ≠ []) (hlen : time.length = a.length)
    (hpk : peak < a.length) (hsp : sVal < peak)
    (hex : ∃ x : ℤ, (sVal : ℤ) < x ∧ x ≤ (peak : ℤ) ∧ qAt a x < θ)
    (hnotpeak : ¬ (qAt a (peak : ℤ) < θ)) :
    ∃ j : ℤ, (sVal : ℤ) < j ∧ j < (peak : ℤ) ∧ qAt a j < θ ∧
      (∀ y : ℤ, j < y → y ≤ (peak : ℤ) → θ ≤ qAt a y) ∧
      (FindThresholdCrossingBackward a time (peak : ℤ) (sVal : ℤ) θ rms).found = true ∧
      (FindThresholdCrossingBackward a time (peak : ℤ) (sVal : ℤ) θ rms).time
        = Interpolate (qAt time j) (qAt a j) (qAt time (j + 1)) (qAt a (j + 1)) θ := by
  have hguard : ¬ (a.isEmpty ∨ time.length ≠ a.length) := by
    push_neg
    exact ⟨by simpa using ha, hlen⟩
  have hstart : min ((peak : ℕ) : ℤ) ((a.length : ℤ) - 1) = (peak : ℤ) := by omega
  have hstop : max 0 ((sVal : ℕ) : ℤ) = (sVal : ℤ) := by omega
  set L := (intRangeIco ((sVal : ℤ) + 1) ((peak : ℤ) + 1)).reverse with hL
  have hpwL : L.Pairwise (· > ·) := by
    rw [hL, List.pairwise_reverse]
    exact pairwise_intRangeIco _ _
  have hmemL : ∀ i : ℤ, i ∈ L ↔ (sVal : ℤ) < i ∧ i ≤ (peak : ℤ) := by
    intro i
    rw [hL, List.mem_reverse, mem_intRangeIco]
    omega
  obtain ⟨x, hx1, hx2, hx3⟩ := hex
  have hsome : (L.find? (fun i => decide (qAt a i < θ))).isSome := by
    rw [List.find?_isSome]
    exact ⟨x, (hmemL x).mpr ⟨hx1, hx2⟩, by simpa using hx3⟩
  obtain ⟨j, hj⟩ := Option.isSome_iff_exists.mp hsome
  have hjmem : j ∈ L := List.mem_of_find?_eq_some hj
  have hjrange : (sVal : ℤ) < j ∧ j ≤ (peak : ℤ) := (hmemL j).mp hjmem
  have hjθ : qAt a j < θ := by simpa using List.find?_some hj
  have hjmax : ∀ y : ℤ, j < y → y ≤ (peak : ℤ) → θ ≤ qAt a y := by
    intro y hy1 hy2
    by_cases hymem : (sVal : ℤ) < y
    · have := find?_desc_larger_not _ L hpwL j hj y ((hmemL y).mpr ⟨hymem, hy2⟩) hy1
      simpa using this
    · omega
  have hjpeak : j < (peak : ℤ) := by
    rcases lt_or_eq_of_le hjrange.2 with h | h
    · exact h
    · rw [h] at hjθ
      exact absurd hjθ hnotpeak
  refine ⟨j, hjrange.1, hjpeak, hjθ, hjmax, ?_⟩
  have hres : FindThresholdCrossingBackward a time (peak : ℤ) (sVal : ℤ) θ rms
      = { time := Interpolate (qAt time j) (qAt a j) (qAt time (j + 1)) (qAt a (j + 1)) θ,
          jitter := if EPS < |(qAt a (j + 1) - qAt a j) / (qAt time (j + 1) - qAt time j)| then
              rms / |(qAt a (j + 1) - qAt a j) / (qAt time (j + 1) - qAt time j)| else 0,
          found := true } := by
    unfold FindThresholdCrossingBackward
    rw [if_neg hguard]
    simp only [hstart, hstop, ← hL, hj]
    rw [if_pos (by omega : j + 1 < (a.length : ℤ))]
  rw [hres]
  exact ⟨rfl, rfl⟩

/-- The interpolated crossing stays inside its sample interval. -/
theorem interpolate_bounds (tj aj tj1 aj1 θ : ℚ) (h1 : aj < θ) (h2 : θ ≤ aj1)
    (ht : tj ≤ tj1) :
    tj ≤ Interpolate tj aj tj1 aj1 θ ∧ Interpolate tj aj tj1 aj1 θ ≤ tj1 := by
  unfold Interpolate
  by_cases hg : |aj1 - aj| < EPS
  · rw [if_pos hg]
    exact ⟨le_refl _, ht⟩
  · rw [if_neg hg]
    have hΔ : 0 < aj1 - aj := by linarith
    have hu : 0 < θ - aj := by linarith
    have huΔ : θ - aj ≤ aj1 - aj := by linarith
    have hd : 0 ≤ tj1 - tj := by linarith
    constructor
    · have : 0 ≤ (tj1 - tj) / (aj1 - aj) * (θ - aj) := by positivity
      linarith
    · have hkey : (tj1 - tj) / (aj1 - aj) * (θ - aj) ≤ tj1 - tj := by
        rw [div_mul_eq_mul_div, div_le_iff₀ hΔ]
        calc (tj1 - tj) * (θ - aj) ≤ (tj1 - tj) * (aj1 - aj) :=
              mul_le_mul_of_nonneg_left huΔ hd
          _ = (tj1 - tj) * (aj1 - aj) := rfl
      linarith

/-- Within one sample interval the interpolated crossing is monotone in the
threshold. -/
theorem interpolate_mono (tj aj tj1 aj1 θ1 θ2 : ℚ) (ha : aj < aj1)
    (ht : tj ≤ tj1) (hθ : θ1 ≤ θ2) :
    Interpolate tj aj tj1 aj1 θ1 ≤ Interpolate tj aj tj1 aj1 θ2 := by
  unfold Interpolate
  by_cases hg : |aj1 - aj| < EPS
  · rw [if_pos hg, if_pos hg]
  · rw [if_neg hg, if_neg hg]
    have hΔ : 0 < aj1 - aj := by linarith
    have : (tj1 - tj) / (aj1 - aj) * (θ1 - aj) ≤ (tj1 - tj) / (aj1 - aj) * (θ2 - aj) := by
      apply mul_le_mul_of_nonneg_left (by linarith)
      exact div_nonneg (by linarith) (by linarith)
    linarith

theorem qAt_chain (time : List ℚ) (sVal peak : ℤ)
    (hm : ∀ i : ℤ, sVal ≤ i → i < peak → qAt time i ≤ qAt time (i + 1)) :
    ∀ n : ℕ, ∀ i : ℤ, sVal ≤ i → i + n ≤ peak → qAt time i ≤ qAt time (i + n) := by
  intro n
  induction n with
  | zero => intro i _ _; simp
  | succ m ih =>
    intro i hi hip
    have hcast : (((m : ℕ) + 1 : ℕ) : ℤ) = (m : ℤ) + 1 := by push_cast; ring
    have h1 : qAt time i ≤ qAt time (i + m) := ih i hi (by omega)
    have h2 : qAt time (i + m) ≤ qAt time (i + m + 1) := hm _ (by omega) (by omega)
    calc qAt time i ≤ qAt time (i + m) := h1
      _ ≤ qAt time (i + m + 1) := h2
      _ = qAt time (i + ((m : ℕ) + 1 : ℕ)) := by rw [hcast]; ring_nf

/-- C7: on a strictly rising edge between the signal-window start and the
peak, with a monotone time axis, the backward-search CFD crossing times for
percentages `p1 ≤ p2 ≤ 100` of the (positive) peak amplitude are both found
and ordered: `t(p1) ≤ t(p2)`. -/
theorem cfd_monotone (a time : List ℚ) (peak sVal : ℕ) (rms p1 p2 : ℚ)
    (ha : a ≠ []) (hlen : time.length = a.length)
    (hpk : peak < a.length) (hsp : sVal < peak)
    (hA : 0 < qAt a (peak : ℤ))
    (hmka : ∀ i : ℤ, (sVal : ℤ) ≤ i → i < (peak : ℤ) → qAt a i < qAt a (i + 1))
    (hmkt : ∀ i : ℤ, (sVal : ℤ) ≤ i → i < (peak : ℤ) → qAt time i ≤ qAt time (i + 1))
    (hp : p1 ≤ p2) (hp100 : p2 ≤ 100)
    (hcross : qAt a ((sVal : ℤ) + 1) < qAt a (peak : ℤ) * (p1 / 100)) :
    (FindThresholdCrossingBackward a time (peak : ℤ) (sVal : ℤ)
        (qAt a (peak : ℤ) * (p1 / 100)) rms).found = true ∧
    (FindThresholdCrossingBackward a time (peak : ℤ) (sVal : ℤ)
        (qAt a (peak : ℤ) * (p2 / 100)) rms).found = true ∧
    (FindThresholdCrossingBackward a time (peak : ℤ) (sVal : ℤ)
        (qAt a (peak : ℤ) * (p1 / 100)) rms).time ≤
      (FindThresholdCrossingBackward a time (peak : ℤ) (sVal : ℤ)
        (qAt a (peak : ℤ) * (p2 / 100)) rms).time := by
  set A := qAt a (peak : ℤ) with hAdef
  set θ1 := A * (p1 / 100) with hθ1
  set θ2 := A * (p2 / 100) with hθ2
  have hθ12 : θ1 ≤ θ2 := by
    rw [hθ1, hθ2]
    apply mul_le_mul_of_nonneg_left _ (le_of_lt hA)
    linarith
  have hθ2A : θ2 ≤ A := by
    rw [hθ2]
    nlinarith
  have hex1 : ∃ x : ℤ, (sVal : ℤ) < x ∧ x ≤ (peak : ℤ) ∧ qAt a x < θ1 :=
    ⟨(sVal : ℤ) + 1, by omega, by omega, hcross⟩
  have hex2 : ∃ x : ℤ, (sVal : ℤ) < x ∧ x ≤ (peak : ℤ) ∧ qAt a x < θ2 :=
    ⟨(sVal : ℤ) + 1, by omega, by omega, lt_of_lt_of_le hcross hθ12⟩
  have hnp1 : ¬ (qAt a (peak : ℤ) < θ1) := not_lt.mpr (le_trans hθ12 hθ2A)
  have hnp2 : ¬ (qAt a (peak : ℤ) < θ2) := not_lt.mpr hθ2A
  obtain ⟨j1, hj1s, hj1p, hj1θ, hj1max, hf1, ht1⟩ :=
    findThresholdCrossingBackward_char a time peak sVal θ1 rms ha hlen hpk hsp hex1 hnp1
  obtain ⟨j2, hj2s, hj2p, hj2θ, hj2max, hf2, ht2⟩ :=
    findThresholdCrossingBackward_char a time peak sVal θ2 rms ha hlen hpk hsp hex2 hnp2
  refine ⟨hf1, hf2, ?_⟩
  rw [ht1, ht2]
  have hj12 : j1 ≤ j2 := by
    by_contra hcon
    push_neg at hcon
    have := hj2max j1 hcon (by omega)
    have : θ2 ≤ qAt a j1 := this
    have : θ1 ≤ θ2 := hθ12
    linarith [hj1θ]
  have hθ1succ : θ1 ≤ qAt a (j1 + 1) := hj1max (j1 + 1) (by omega) (by omega)
  have hθ2succ : θ2 ≤ qAt a (j2 + 1) := hj2max (j2 + 1) (by omega) (by omega)
  have htmono1 : qAt time j1 ≤ qAt time (j1 + 1) := hmkt j1 (by omega) (by omega)
  have htmono2 : qAt time j2 ≤ qAt time (j2 + 1) := hmkt j2 (by omega) (by omega)
  rcases eq_or_lt_of_le hj12 with rfl | hlt
  · -- same interval: monotone in the threshold level
    exact interpolate_mono _ _ _ _ _ _
      (lt_of_lt_of_le hj1θ hθ1succ) htmono1 hθ12
  · -- different intervals: chain through the time axis
    have hb1 := interpolate_bounds (qAt time j1) (qAt a j1) (qAt time (j1 + 1))
      (qAt a (j1 + 1)) θ1 hj1θ hθ1succ htmono1
    have hb2 := interpolate_bounds (qAt time j2) (qAt a j2) (qAt time (j2 + 1))
      (qAt a (j2 + 1)) θ2 hj2θ hθ2succ htmono2
    have hchain : qAt time (j1 + 1) ≤ qAt time j2 := by
      have := qAt_chain time (sVal : ℤ) (peak : ℤ) hmkt (j2 - (j1 + 1)).toNat
        (j1 + 1) (by omega) (by omega)
      have hco : j1 + 1 + ((j2 - (j1 + 1)).toNat : ℤ) = j2 := by omega
      rwa [hco] at this
    linarith [hb1.2, hb2.1]

/-- Witness for C7 at a concrete input (the spec's scenario at 30% and 50%
of a peak 4 on the linear ramp `[0,1,2,3,4]`). -/
theorem cfd_monotone_witness :
    (([0, 1, 2, 3, 4] : List ℚ) ≠ [] ∧
      qAt [0, 1, 2, 3, 4] ((0 : ℕ) + 1 : ℤ)
        < qAt [0, 1, 2, 3, 4] ((4 : ℕ) : ℤ) * (30 / 100)) ∧
    (FindThresholdCrossingBackward [0, 1, 2, 3, 4] [0, 1, 2, 3, 4] ((4:ℕ) : ℤ) ((0:ℕ) : ℤ)
        (qAt [0, 1, 2, 3, 4] ((4:ℕ) : ℤ) * (30 / 100)) 0).time ≤
      (FindThresholdCrossingBackward [0, 1, 2, 3, 4] [0, 1, 2, 3, 4] ((4:ℕ) : ℤ) ((0:ℕ) : ℤ)
        (qAt [0, 1, 2, 3, 4] ((4:ℕ) : ℤ) * (50 / 100)) 0).time := by
  have hcross : qAt [0, 1, 2, 3, 4] ((0 : ℕ) + 1 : ℤ)
      < qAt [0, 1, 2, 3, 4] ((4 : ℕ) : ℤ) * (30 / 100) := by
    norm_num [qAt, show Int.toNat (4:ℤ) = 4 from rfl, show Int.toNat (1:ℤ) = 1 from rfl]
  refine ⟨⟨by decide, hcross⟩, ?_⟩
  exact (cfd_monotone [0, 1, 2, 3, 4] [0, 1, 2, 3, 4] 4 0 0 30 50
    (by decide) (by decide) (by decide) (by decide)
    (by norm_num [qAt, show Int.toNat (4:ℤ) = 4 from rfl])
    (by intro i h1 h2
        interval_cases i <;>
          norm_num [qAt, show Int.toNat (1:ℤ) = 1 from rfl,
            show Int.toNat (2:ℤ) = 2 from rfl, show Int.toNat (3:ℤ) = 3 from rfl,
            show Int.toNat (4:ℤ) = 4 from rfl])
    (by intro i h1 h2
        interval_cases i <;>
          norm_num [qAt, show Int.toNat (1:ℤ) = 1 from rfl,
            show Int.toNat (2:ℤ) = 2 from rfl, show Int.toNat (3:ℤ) = 3 from rfl,
            show Int.toNat (4:ℤ) = 4 from rfl])
    (by norm_num) (by norm_num) hcross).2.2

/-! ### Binary ingestion (`ConvertBinaryToRoot` / `ConvertBinaryToRootParallel`)

The two converter paths are modelled at the level of decoded per-channel
records: `ReadHeader` + the payload read (serial path) and
`ReadChannelChunk` (parallel path) both deliver `BinaryEventData` records,
one per trigger per channel.  Structural decode errors (bad `eventSize`,
truncated payloads) live below this level and are not modelled; end of
stream is an empty list. -/

/-- `struct BinaryEventData` (`file_io.h`). -/
structure BinaryEventData where
  boardId : ℕ
  channelId : ℕ
  eventCounter : ℕ
  samples : List ℚ
deriving Repr, DecidableEq, Inhabited

/-- `enum class NsamplesPolicy`. -/
inductive NsamplesPolicy | strict | pad
deriving Repr, DecidableEq

/-- `enum class EventPolicy`. -/
inductive EventPolicy | error | warn | skip
deriving Repr, DecidableEq

/-- The converter configuration fields the ingestion loops read. -/
structure ConvConfig where
  pedTarget : ℚ
  pedestalWindow : ℤ
  nsamplesPolicy : NsamplesPolicy
  eventPolicy : EventPolicy
  specialEnabled : Bool := false
  specialIndex : ℤ := -1
  maxEvents : ℤ := -1
  chunkSize : ℕ := 1000
deriving Repr, DecidableEq

/-- `IsSpecialOverrideChannel`. -/
def IsSpecialOverrideChannel (cfg : ConvConfig) (nCh : ℕ) (ch : ℕ) : Prop :=
  cfg.specialEnabled = true ∧ cfg.specialIndex = (ch : ℤ) ∧
    0 ≤ cfg.specialIndex ∧ cfg.specialIndex < (nCh : ℤ)

instance (cfg : ConvConfig) (nCh ch : ℕ) :
    Decidable (IsSpecialOverrideChannel cfg nCh ch) := by
  unfold IsSpecialOverrideChannel
  infer_instance

/-- The consistency checks of the ingestion loops: for each channel
`ch ≥ 1`, `eventCounter` and `boardId` must match channel 0 and `channelId`
must equal the positional index unless the channel is the special
override. -/
def hasConsistencyIssue (cfg : ConvConfig) (nCh : ℕ)
    (recs : List BinaryEventData) : Bool :=
  match recs with
  | [] => false
  | ref :: rest =>
    (List.range rest.length).any (fun j =>
      let ch := j + 1
      let r := rest.getD j default
      decide (r.eventCounter ≠ ref.eventCounter) ||
        decide (r.boardId ≠ ref.boardId) ||
        (decide (r.channelId ≠ ch) && ! decide (IsSpecialOverrideChannel cfg nCh ch)))

/-- A cross-channel `eventCounter` mismatch (one kind of consistency
issue). -/
def hasCounterMismatch (recs : List BinaryEventData) : Bool :=
  match recs with
  | [] => false
  | ref :: rest => rest.any (fun r => decide (r.eventCounter ≠ ref.eventCounter))

/-- `*std::max_element(samplesThisEvent.begin(), samplesThisEvent.end())`. -/
def maxSamplesOf (recs : List BinaryEventData) : ℕ :=
  match recs with
  | [] => 0
  | r :: rest => rest.foldl (fun m x => max m x.samples.length) r.samples.length

/-- `std::any_of(...)`: some channel's sample count differs from the
maximum. -/
def hasNsMismatch (recs : List BinaryEventData) : Bool :=
  recs.any (fun r => decide (r.samples.length ≠ maxSamplesOf recs))

/-- `raw[ch].resize(maxSamples, pedestal)`. -/
def resizeFill (l : List ℚ) (m : ℕ) (fill : ℚ) : List ℚ :=
  l.take m ++ List.replicate (m - l.length) fill

/-- One channel's slice of a filled tree entry. -/
structure ChannelOut where
  boardId : ℕ
  channelId : ℕ
  eventCounter : ℕ
  pedestal : ℚ
  nsamples : ℕ
  raw : List ℚ
  ped : List ℚ
deriving Repr, DecidableEq

def buildChannelOut (cfg : ConvConfig) (p : ℚ) (maxS : ℕ)
    (r : BinaryEventData) : ChannelOut :=
  { boardId := r.boardId, channelId := r.channelId,
    eventCounter := r.eventCounter, pedestal := p,
    nsamples := r.samples.length,
    raw := resizeFill r.samples maxS p,
    ped := pedCorrect r.samples p cfg.pedTarget maxS }

/-- One committed tree entry. -/
structure EventOut where
  eventIdx : ℕ
  nsamples : ℕ
  channels : List ChannelOut
deriving Repr, DecidableEq

/-- Outcome of validating and building one aligned event (the loop body
shared verbatim by the serial and parallel paths): abort the run, skip the
event (no tree fill), or keep it. -/
inductive EventStep
  | fail
  | skipped
  | keep (nsamples : ℕ) (channels : List ChannelOut)
deriving Repr, DecidableEq

instance : Inhabited EventStep := ⟨.fail⟩

/-- The per-event body: consistency check (policy `error` aborts, `skip`
marks the event), then the sample-count check (`strict` aborts on
mismatch), then pedestal computation and padding.  `pedOf` is the pedestal
computation, `serialPedestal`/`parallelPedestal` depending on the path. -/
def processEvent (cfg : ConvConfig) (nCh : ℕ) (pedOf : List ℚ → ℚ)
    (recs : List BinaryEventData) : EventStep :=
  let issue := hasConsistencyIssue cfg nCh recs
  if issue = true ∧ cfg.eventPolicy = .error then .fail
  else if hasNsMismatch recs = true ∧ cfg.nsamplesPolicy = .strict then .fail
  else if issue = true ∧ cfg.eventPolicy = .skip then .skipped
  else
    let maxS := maxSamplesOf recs
    .keep maxS (recs.map (fun r => buildChannelOut cfg (pedOf r.samples) maxS r))

/-- Minimum record count across channels (`nEventsInChunk` computation:
start from channel 0's count and take the minimum over the rest). -/
def minLenOf (streams : List (List BinaryEventData)) : ℕ :=
  match streams with
  | [] => 0
  | c :: rest => rest.foldl (fun m s => min m s.length) c.length

theorem sumLen_tail_le (l : List (List BinaryEventData)) :
    ((l.map (·.tail)).map List.length).sum ≤ (l.map List.length).sum := by
  induction l with
  | nil => simp
  | cons y ys ih =>
    simp only [List.map_cons, List.sum_cons]
    have hy : y.tail.length ≤ y.length := by
      rcases y with _ | ⟨z, zs⟩ <;> simp
    omega

theorem sumLen_tail_lt (streams : List (List BinaryEventData))
    (h : ¬ (streams.isEmpty ∨ streams.any (·.isEmpty) = true)) :
    ((streams.map (·.tail)).map List.length).sum < (streams.map List.length).sum := by
  push_neg at h
  obtain ⟨hne, hall⟩ := h
  have hall2 : ∀ x ∈ streams, ¬ (x.isEmpty = true) := by
    intro x hx hempty
    exact hall (List.any_eq_true.mpr ⟨x, hx, hempty⟩)
  rcases streams with _ | ⟨s0, rest⟩
  · simp at hne
  · have h0 : ¬ s0.isEmpty := by simpa using hall2 s0 (by simp)
    have hlen0 : s0.tail.length < s0.length := by
      rcases s0 with _ | ⟨x, xs⟩
      · simp at h0
      · simp
    have hrest := sumLen_tail_le rest
    simp only [List.map_cons, List.sum_cons]
    omega

/-- The serial ingestion loop (`while (running)` of `ConvertBinaryToRoot`):
one record per channel per iteration; stop with success at the first
end-of-stream on any channel; `eventCount` (the first component) counts
processed events, skipped ones included; `eventIdx` of a committed event is
its position in the stream. -/
def serialLoop (cfg : ConvConfig) (nCh : ℕ)
    (streams : List (List BinaryEventData)) (k : ℕ) :
    Option (ℕ × List EventOut) :=
  if h : streams.isEmpty ∨ streams.any (·.isEmpty) then some (k, [])
  else
    match processEvent cfg nCh (serialPedestal cfg.pedestalWindow)
        (streams.map (fun s => s.getD 0 default)) with
    | .fail => none
    | .skipped => serialLoop cfg nCh (streams.map (·.tail)) (k + 1)
    | .keep ns chans =>
      match serialLoop cfg nCh (streams.map (·.tail)) (k + 1) with
      | none => none
      | some (cnt, evs) =>
        some (cnt, { eventIdx := k, nsamples := ns, channels := chans } :: evs)
termination_by (streams.map List.length).sum
decreasing_by
  all_goals exact sumLen_tail_lt streams (by simpa using h)

/-- `ConvertBinaryToRoot`: run the loop; fail if it aborted
(`encounteredError`) or if zero events were processed. -/
def serialIngest (cfg : ConvConfig) (streams : List (List BinaryEventData)) :
    Option (List EventOut) :=
  match serialLoop cfg streams.length streams 0 with
  | none => none
  | some (cnt, evs) => if cnt = 0 then none else some evs

theorem foldl_min_le_acc :
    ∀ (l : List (List BinaryEventData)) (a : ℕ),
      l.foldl (fun m s => min m s.length) a ≤ a := by
  intro l
  induction l with
  | nil => intro a; simp
  | cons x xs ih =>
    intro a
    simp only [List.foldl_cons]
    exact le_trans (ih _) (by omega)

theorem foldl_min_le_mem :
    ∀ (l : List (List BinaryEventData)) (a : ℕ) (s : List BinaryEventData),
      s ∈ l → l.foldl (fun m s => min m s.length) a ≤ s.length := by
  intro l
  induction l with
  | nil => intro a s hs; simp at hs
  | cons x xs ih =>
    intro a s hs
    simp only [List.foldl_cons]
    rcases List.mem_cons.mp hs with rfl | hs2
    · exact le_trans (foldl_min_le_acc _ _) (by omega)
    · exact ih _ s hs2

theorem minLenOf_le_mem (streams : List (List BinaryEventData))
    (s : List BinaryEventData) (hs : s ∈ streams) : minLenOf streams ≤ s.length := by
  rcases streams with _ | ⟨c, rest⟩
  · simp at hs
  · unfold minLenOf
    rcases List.mem_cons.mp hs with rfl | hs2
    · exact foldl_min_le_acc _ _
    · exact foldl_min_le_mem _ _ _ hs2

theorem sumLen_drop_le (C : ℕ) (l : List (List BinaryEventData)) :
    ((l.map (·.drop C)).map List.length).sum ≤ (l.map List.length).sum := by
  induction l with
  | nil => simp
  | cons y ys ih =>
    simp only [List.map_cons, List.sum_cons, List.length_drop]
    omega

theorem sumLen_drop_lt (C : ℕ) (streams : List (List BinaryEventData))
    (h : ¬ minLenOf (streams.map (·.take C)) = 0) :
    ((streams.map (·.drop C)).map List.length).sum < (streams.map List.length).sum := by
  rcases streams with _ | ⟨s0, rest⟩
  · simp [minLenOf] at h
  · have hhead : minLenOf ((s0 :: rest).map (·.take C)) ≤ (s0.take C).length :=
      minLenOf_le_mem _ _ (by simp)
    have hlen : (s0.take C).length = min C s0.length := by simp
    have hC : 1 ≤ C ∧ 1 ≤ s0.length := by omega
    have hrest := sumLen_drop_le C rest
    simp only [List.map_cons, List.sum_cons, List.length_drop]
    omega

/-- The aligned event columns: column `k` pairs the `k`-th record of every
channel (`chunkData[ch][evt]` in the parallel path, the per-iteration heads
in the serial path). -/
def alignedCols (streams : List (List BinaryEventData)) (L : ℕ) :
    List (List BinaryEventData) :=
  (List.range L).map (fun k => streams.map (fun s => s.getD k default))

/-- The inner `for (evt …)` loop of a chunk: process the aligned columns in
order, abort on `fail`, drop `skipped`, collect kept entries. -/
def processColumns (cfg : ConvConfig) (nCh : ℕ) (pedOf : List ℚ → ℚ) :
    List (List BinaryEventData) → Option (List (ℕ × List ChannelOut))
  | [] => some []
  | col :: rest =>
    match processEvent cfg nCh pedOf col with
    | .fail => none
    | .skipped => processColumns cfg nCh pedOf rest
    | .keep ns chans =>
      match processColumns cfg nCh pedOf rest with
      | none => none
      | some l => some ((ns, chans) :: l)

/-- The chunk loop of `ConvertBinaryToRootParallel`: read `chunk_size`
records per channel, stop when the per-chunk minimum is zero, process the
first `min(m, max_events)` columns (the `max_events` break compares the
in-chunk index), drop the longer channels' surplus records, continue with
the rest of the streams. -/
def parallelRounds (cfg : ConvConfig) (nCh : ℕ)
    (streams : List (List BinaryEventData)) :
    Option (List (ℕ × List ChannelOut)) :=
  if h : minLenOf (streams.map (·.take cfg.chunkSize)) = 0 then some []
  else
    match processColumns cfg nCh (parallelPedestal cfg.pedestalWindow)
        (alignedCols (streams.map (·.take cfg.chunkSize))
          (if 0 ≤ cfg.maxEvents then
            min (minLenOf (streams.map (·.take cfg.chunkSize))) cfg.maxEvents.toNat
          else minLenOf (streams.map (·.take cfg.chunkSize)))) with
    | none => none
    | some cores =>
      match parallelRounds cfg nCh (streams.map (·.drop cfg.chunkSize)) with
      | none => none
      | some more => some (cores ++ more)
termination_by (streams.map List.length).sum
decreasing_by
  all_goals exact sumLen_drop_lt cfg.chunkSize streams h

/-- `ConvertBinaryToRootParallel`: run the chunk loop; fail if any event
aborted the run or if zero events were committed; committed events are
numbered consecutively by `totalEventsProcessed`. -/
def parallelIngest (cfg : ConvConfig) (streams : List (List BinaryEventData)) :
    Option (List EventOut) :=
  match parallelRounds cfg streams.length streams with
  | none => none
  | some cores =>
    if cores.length = 0 then none
    else some (cores.enum.map (fun ic =>
      { eventIdx := ic.1, nsamples := ic.2.1, channels := ic.2.2 }))

/-- Canonical single-pass processing of aligned columns, tagging committed
events with their absolute position; both ingestion paths reduce to it. -/
def canonIngest (cfg : ConvConfig) (nCh : ℕ) (pedOf : List ℚ → ℚ) :
    List (List BinaryEventData) → ℕ → Option (List EventOut)
  | [], _ => some []
  | col :: rest, k =>
    match processEvent cfg nCh pedOf col with
    | .fail => none
    | .skipped => canonIngest cfg nCh pedOf rest (k + 1)
    | .keep ns chans =>
      match canonIngest cfg nCh pedOf rest (k + 1) with
      | none => none
      | some evs => some ({ eventIdx := k, nsamples := ns, channels := chans } :: evs)

/-! Structural lemmas about `minLenOf` and `alignedCols`. -/

theorem getD_succ_tail (s : List BinaryEventData) (k : ℕ) :
    s.getD (k + 1) default = s.tail.getD k default := by
  cases s <;> simp [List.getD]

theorem alignedCols_succ (streams : List (List BinaryEventData)) (L : ℕ) :
    alignedCols streams (L + 1)
      = (streams.map (fun s => s.getD 0 default)) ::
          alignedCols (streams.map (·.tail)) L := by
  unfold alignedCols
  rw [List.range_succ_eq_map]
  simp only [List.map_cons, List.map_map]
  congr 1
  apply List.map_congr_left
  intro k _
  simp only [Function.comp]
  apply List.map_congr_left
  intro s _
  exact getD_succ_tail s k

theorem minLenOf_zero_of_stop (streams : List (List BinaryEventData))
    (h : streams.isEmpty ∨ streams.any (·.isEmpty) = true) :
    minLenOf streams = 0 := by
  rcases h with h | h
  · rcases streams with _ | _
    · rfl
    · simp at h
  · rw [List.any_eq_true] at h
    obtain ⟨s, hs, hempty⟩ := h
    have h0 : s.length = 0 := by
      simpa [List.isEmpty_iff_length_eq_zero] using hempty
    have := minLenOf_le_mem streams s hs
    omega

theorem foldl_min_ge (b : ℕ) :
    ∀ (l : List (List BinaryEventData)) (a : ℕ), b ≤ a →
      (∀ s ∈ l, b ≤ s.length) →
      b ≤ l.foldl (fun m s => min m s.length) a := by
  intro l
  induction l with
  | nil => intro a ha _; simpa using ha
  | cons x xs ih =>
    intro a ha hall
    simp only [List.foldl_cons]
    exact ih _ (le_min ha (hall x (by simp))) (fun s hs => hall s (by simp [hs]))

theorem one_le_minLenOf (streams : List (List BinaryEventData))
    (hne : streams ≠ []) (hall : ∀ s ∈ streams, s ≠ []) :
    1 ≤ minLenOf streams := by
  rcases streams with _ | ⟨c, rest⟩
  · exact absurd rfl hne
  · unfold minLenOf
    apply foldl_min_ge
    · have := hall c (by simp)
      exact List.length_pos.mpr this
    · intro s hs
      exact List.length_pos.mpr (hall s (by simp [hs]))

theorem foldl_min_sub (C : ℕ) :
    ∀ (l : List (List BinaryEventData)) (a : ℕ),
      (l.map (·.drop C)).foldl (fun m s => min m s.length) (a - C)
        = (l.foldl (fun m s => min m s.length) a) - C := by
  intro l
  induction l with
  | nil => intro a; simp
  | cons x xs ih =>
    intro a
    simp only [List.map_cons, List.foldl_cons, List.length_drop]
    rw [show min (a - C) (x.length - C) = min a x.length - C from by omega]
    exact ih _

theorem minLenOf_drop (C : ℕ) (streams : List (List BinaryEventData)) :
    minLenOf (streams.map (·.drop C)) = minLenOf streams - C := by
  rcases streams with _ | ⟨c, rest⟩
  · simp [minLenOf]
  · show (rest.map (·.drop C)).foldl (fun m s => min m s.length) (c.drop C).length
      = rest.foldl (fun m s => min m s.length) c.length - C
    rw [List.length_drop]
    exact foldl_min_sub C rest c.length

theorem minLenOf_tail (streams : List (List BinaryEventData)) :
    minLenOf (streams.map (·.tail)) = minLenOf streams - 1 := by
  have h : streams.map (·.tail) = streams.map (·.drop 1) := by
    apply List.map_congr_left
    intro s _
    exact (List.drop_one s).symm
  rw [h, minLenOf_drop]

theorem foldl_min_take (C : ℕ) :
    ∀ (l : List (List BinaryEventData)) (a : ℕ),
      (l.map (·.take C)).foldl (fun m s => min m s.length) (min C a)
        = min C (l.foldl (fun m s => min m s.length) a) := by
  intro l
  induction l with
  | nil => intro a; simp
  | cons x xs ih =>
    intro a
    simp only [List.map_cons, List.foldl_cons, List.length_take]
    rw [show min (min C a) (min C x.length) = min C (min a x.length) from by omega]
    exact ih _

theorem minLenOf_take (C : ℕ) (streams : List (List BinaryEventData))
    (hne : streams ≠ []) :
    minLenOf (streams.map (·.take C)) = min C (minLenOf streams) := by
  rcases streams with _ | ⟨c, rest⟩
  · exact absurd rfl hne
  · show (rest.map (·.take C)).foldl (fun m s => min m s.length) (c.take C).length
      = min C (rest.foldl (fun m s => min m s.length) c.length)
    rw [List.length_take]
    exact foldl_min_take C rest c.length

theorem getD_take (s : List BinaryEventData) (C k : ℕ) (h : k < C) :
    (s.take C).getD k default = s.getD k default := by
  rw [List.getD_eq_getElem?_getD, List.getD_eq_getElem?_getD, List.getElem?_take]
  rw [if_pos h]

theorem getD_drop (s : List BinaryEventData) (a k : ℕ) :
    (s.drop a).getD k default = s.getD (a + k) default := by
  rw [List.getD_eq_getElem?_getD, List.getD_eq_getElem?_getD, List.getElem?_drop]

theorem alignedCols_take (C L : ℕ) (hLC : L ≤ C)
    (streams : List (List BinaryEventData)) :
    alignedCols (streams.map (·.take C)) L = alignedCols streams L := by
  unfold alignedCols
  apply List.map_congr_left
  intro k hk
  rw [List.map_map]
  apply List.map_congr_left
  intro s _
  simp only [Function.comp]
  exact getD_take s C k (by simp at hk; omega)

theorem alignedCols_add (streams : List (List BinaryEventData)) (a b : ℕ) :
    alignedCols streams (a + b)
      = alignedCols streams a ++ alignedCols (streams.map (·.drop a)) b := by
  unfold alignedCols
  rw [List.range_add, List.map_append]
  congr 1
  rw [List.map_map]
  apply List.map_congr_left
  intro k _
  simp only [Function.comp]
  rw [List.map_map]
  apply List.map_congr_left
  intro s _
  simp only [Function.comp]
  exact (getD_drop s a k).symm

theorem alignedCols_length (streams : List (List BinaryEventData)) (L : ℕ) :
    (alignedCols streams L).length = L := by
  unfold alignedCols
  simp

theorem alignedCols_getD (streams : List (List BinaryEventData)) (L j : ℕ)
    (hj : j < L) :
    (alignedCols streams L).getD j []
      = streams.map (fun s => s.getD j default) := by
  unfold alignedCols
  rw [List.getD_eq_getElem?_getD, List.getElem?_map,
    List.getElem?_range hj]
  rfl

theorem mem_alignedCols (streams : List (List BinaryEventData)) (L : ℕ)
    (c : List BinaryEventData) :
    c ∈ alignedCols streams L ↔
      ∃ k : ℕ, k < L ∧ c = streams.map (fun s => s.getD k default) := by
  unfold alignedCols
  simp only [List.mem_map, List.mem_range]
  constructor
  · rintro ⟨k, hk, rfl⟩; exact ⟨k, hk, rfl⟩
  · rintro ⟨k, hk, rfl⟩; exact ⟨k, hk, rfl⟩

/-- The serial loop is the canonical column-wise pass over the aligned
events, and processes exactly `minLenOf streams` events. -/
theorem serialLoop_canon (cfg : ConvConfig) (nCh : ℕ) :
    ∀ (n : ℕ) (streams : List (List BinaryEventData)) (k : ℕ),
      (streams.map List.length).sum ≤ n →
      serialLoop cfg nCh streams k
        = Option.map (fun evs => (k + minLenOf streams, evs))
            (canonIngest cfg nCh (serialPedestal cfg.pedestalWindow)
              (alignedCols streams (minLenOf streams)) k) := by
  intro n
  induction n with
  | zero =>
    intro streams k hsum
    have hstop : streams.isEmpty ∨ streams.any (·.isEmpty) = true := by
      rcases streams with _ | ⟨s, rest⟩
      · left; rfl
      · right
        rw [List.any_eq_true]
        refine ⟨s, by simp, ?_⟩
        simp only [List.map_cons, List.sum_cons] at hsum
        simpa [List.isEmpty_iff_length_eq_zero] using (by omega : s.length = 0)
    rw [serialLoop, dif_pos hstop, minLenOf_zero_of_stop streams hstop]
    simp [alignedCols, canonIngest]
  | succ n ih =>
    intro streams k hsum
    by_cases hstop : streams.isEmpty ∨ streams.any (·.isEmpty) = true
    · rw [serialLoop, dif_pos hstop, minLenOf_zero_of_stop streams hstop]
      simp [alignedCols, canonIngest]
    · rw [serialLoop, dif_neg hstop]
      have hne : streams ≠ [] := by
        intro he
        exact hstop (Or.inl (by simp [he]))
      have hall : ∀ s ∈ streams, s ≠ [] := by
        intro s hs he
        exact hstop (Or.inr (List.any_eq_true.mpr ⟨s, hs, by simp [he]⟩))
      have hL1 : 1 ≤ minLenOf streams := one_le_minLenOf streams hne hall
      obtain ⟨m, hm⟩ : ∃ m, minLenOf streams = m + 1 :=
        ⟨minLenOf streams - 1, by omega⟩
      have htail : minLenOf (streams.map (·.tail)) = m := by
        rw [minLenOf_tail, hm]
        omega
      have hcols : alignedCols streams (minLenOf streams)
          = (streams.map (fun s => s.getD 0 default)) ::
              alignedCols (streams.map (·.tail)) m := by
        rw [hm]
        exact alignedCols_succ streams m
      have hsum2 : ((streams.map (·.tail)).map List.length).sum ≤ n := by
        have := sumLen_tail_lt streams hstop
        omega
      rw [hcols, canonIngest]
      rcases hpe : processEvent cfg nCh (serialPedestal cfg.pedestalWindow)
          (streams.map (fun s => s.getD 0 default)) with _ | _ | ⟨ns, chans⟩
      · simp only [hpe]
        rfl
      · simp only [hpe]
        rw [ih (streams.map (·.tail)) (k + 1) hsum2, htail, hm]
        simp only [show k + 1 + m = k + (m + 1) from by omega]
      · simp only [hpe]
        rw [ih (streams.map (·.tail)) (k + 1) hsum2, htail, hm]
        rcases hcanon : canonIngest cfg nCh (serialPedestal cfg.pedestalWindow)
            (alignedCols (streams.map (·.tail)) m) (k + 1) with _ | evs
        · simp only [hcanon]
          rfl
        · simp only [hcanon, show k + 1 + m = k + (m + 1) from by omega]
          rfl

theorem processColumns_append (cfg : ConvConfig) (nCh : ℕ) (pedOf : List ℚ → ℚ)
    (cols1 cols2 : List (List BinaryEventData)) :
    processColumns cfg nCh pedOf (cols1 ++ cols2)
      = match processColumns cfg nCh pedOf cols1 with
        | none => none
        | some l1 =>
          match processColumns cfg nCh pedOf cols2 with
          | none => none
          | some l2 => some (l1 ++ l2) := by
  induction cols1 with
  | nil =>
    simp only [List.nil_append, processColumns]
    rcases processColumns cfg nCh pedOf cols2 with _ | l2 <;> rfl
  | cons col rest ih =>
    rw [List.cons_append]
    simp only [processColumns]
    rcases hpe : processEvent cfg nCh pedOf col with _ | _ | ⟨ns, chans⟩
    · simp only [hpe]
    · simp only [hpe]
      exact ih
    · simp only [hpe]
      rw [ih]
      rcases processColumns cfg nCh pedOf rest with _ | l1
      · rfl
      · rcases processColumns cfg nCh pedOf cols2 with _ | l2 <;> rfl

/-- Forgetting the event indices turns the canonical pass into the parallel
per-chunk pass. -/
def stripEv (e : EventOut) : ℕ × List ChannelOut := (e.nsamples, e.channels)

theorem canon_strip (cfg : ConvConfig) (nCh : ℕ) (pedOf : List ℚ → ℚ) :
    ∀ (cols : List (List BinaryEventData)) (k : ℕ),
      Option.map (List.map stripEv) (canonIngest cfg nCh pedOf cols k)
        = processColumns cfg nCh pedOf cols := by
  intro cols
  induction cols with
  | nil => intro k; rfl
  | cons col rest ih =>
    intro k
    simp only [canonIngest, processColumns]
    rcases hpe : processEvent cfg nCh pedOf col with _ | _ | ⟨ns, chans⟩ <;>
      simp only [hpe]
    · rfl
    · exact ih (k + 1)
    · rw [← ih (k + 1)]
      rcases canonIngest cfg nCh pedOf rest (k + 1) with _ | evs <;> rfl

/-- In the exact-arithmetic model the per-event body is identical on the
two paths. -/
theorem processEvent_ped (cfg : ConvConfig) (nCh : ℕ) (recs : List BinaryEventData) :
    processEvent cfg nCh (serialPedestal cfg.pedestalWindow) recs
      = processEvent cfg nCh (parallelPedestal cfg.pedestalWindow) recs := by
  unfold processEvent
  simp only [serialPedestal_eq_parallelPedestal]

theorem canonIngest_ped (cfg : ConvConfig) (nCh : ℕ) :
    ∀ (cols : List (List BinaryEventData)) (k : ℕ),
      canonIngest cfg nCh (serialPedestal cfg.pedestalWindow) cols k
        = canonIngest cfg nCh (parallelPedestal cfg.pedestalWindow) cols k := by
  intro cols
  induction cols with
  | nil => intro k; rfl
  | cons col rest ih =>
    intro k
    simp only [canonIngest, processEvent_ped, ih]

/-- The chunked parallel loop with the (parallel-only) event limit disabled
is the same canonical column-wise pass over the aligned events. -/
theorem parallelRounds_cols (cfg : ConvConfig) (nCh : ℕ)
    (hC : 1 ≤ cfg.chunkSize) (hME : cfg.maxEvents < 0) :
    ∀ (n : ℕ) (streams : List (List BinaryEventData)),
      (streams.map List.length).sum ≤ n →
      parallelRounds cfg nCh streams
        = processColumns cfg nCh (parallelPedestal cfg.pedestalWindow)
            (alignedCols streams (minLenOf streams)) := by
  have hMneg : ¬ (0 ≤ cfg.maxEvents) := by omega
  intro n
  induction n with
  | zero =>
    intro streams hsum
    have hz : minLenOf (streams.map (·.take cfg.chunkSize)) = 0 := by
      rcases streams with _ | ⟨s, rest⟩
      · rfl
      · have hslen : s.length = 0 := by
          simp only [List.map_cons, List.sum_cons] at hsum
          omega
        have : (s.take cfg.chunkSize).length = 0 := by
          simp [hslen]
        have hmem := minLenOf_le_mem ((s :: rest).map (·.take cfg.chunkSize))
          (s.take cfg.chunkSize) (by simp)
        omega
    rw [parallelRounds, dif_pos hz]
    have hL0 : minLenOf streams = 0 := by
      rcases streams with _ | ⟨s, rest⟩
      · rfl
      · rw [minLenOf_take cfg.chunkSize _ (by simp)] at hz
        omega
    rw [hL0]
    rfl
  | succ n ih =>
    intro streams hsum
    by_cases hz : minLenOf (streams.map (·.take cfg.chunkSize)) = 0
    · rw [parallelRounds, dif_pos hz]
      have hL0 : minLenOf streams = 0 := by
        rcases streams with _ | ⟨s, rest⟩
        · rfl
        · rw [minLenOf_take cfg.chunkSize _ (by simp)] at hz
          omega
      rw [hL0]
      rfl
    · rw [parallelRounds, dif_neg hz]
      have hne : streams ≠ [] := by
        intro he
        exact hz (by simp [he, minLenOf])
      have hmtake : minLenOf (streams.map (·.take cfg.chunkSize))
          = min cfg.chunkSize (minLenOf streams) :=
        minLenOf_take cfg.chunkSize streams hne
      have hL1 : 1 ≤ minLenOf streams := by omega
      rw [if_neg hMneg]
      have hdropmin : minLenOf (streams.map (·.drop cfg.chunkSize))
          = minLenOf streams - cfg.chunkSize := minLenOf_drop cfg.chunkSize streams
      have hsum2 : ((streams.map (·.drop cfg.chunkSize)).map List.length).sum ≤ n := by
        have := sumLen_drop_lt cfg.chunkSize streams hz
        omega
      by_cases hLC : minLenOf streams ≤ cfg.chunkSize
      · -- the whole remainder fits in this chunk; the next round is empty
        have hmL : minLenOf (streams.map (·.take cfg.chunkSize)) = minLenOf streams := by
          omega
        have halign : alignedCols (streams.map (·.take cfg.chunkSize))
            (minLenOf (streams.map (·.take cfg.chunkSize)))
            = alignedCols streams (minLenOf streams) := by
          rw [hmL]
          exact alignedCols_take cfg.chunkSize _ hLC streams
        have hnext : parallelRounds cfg nCh (streams.map (·.drop cfg.chunkSize))
            = some [] := by
          have hz2 : minLenOf ((streams.map (·.drop cfg.chunkSize)).map
              (·.take cfg.chunkSize)) = 0 := by
            have hne2 : streams.map (·.drop cfg.chunkSize) ≠ [] := by
              simpa using hne
            rw [minLenOf_take cfg.chunkSize _ hne2, hdropmin]
            omega
          rw [parallelRounds, dif_pos hz2]
        rw [halign, hnext]
        rcases processColumns cfg nCh (parallelPedestal cfg.pedestalWindow)
            (alignedCols streams (minLenOf streams)) with _ | cores
        · rfl
        · simp
      · -- a full chunk is processed and the loop continues on the rest
        push_neg at hLC
        have hmC : minLenOf (streams.map (·.take cfg.chunkSize)) = cfg.chunkSize := by
          omega
        have halign : alignedCols (streams.map (·.take cfg.chunkSize))
            (minLenOf (streams.map (·.take cfg.chunkSize)))
            = alignedCols streams cfg.chunkSize := by
          rw [hmC]
          exact alignedCols_take cfg.chunkSize _ (le_refl _) streams
        have hsplit : alignedCols streams (minLenOf streams)
            = alignedCols streams cfg.chunkSize ++
                alignedCols (streams.map (·.drop cfg.chunkSize))
                  (minLenOf streams - cfg.chunkSize) := by
          rw [show minLenOf streams
              = cfg.chunkSize + (minLenOf streams - cfg.chunkSize) from by omega]
          rw [alignedCols_add]
          congr 2
          omega
        rw [halign, ih (streams.map (·.drop cfg.chunkSize)) hsum2, hdropmin,
          hsplit, processColumns_append]

/-- The committed event positions determined by the per-event outcomes:
every processed position except the skipped ones. -/
def keptIdxs : List EventStep → ℕ → List ℕ
  | [], _ => []
  | .skipped :: rest, k => keptIdxs rest (k + 1)
  | .fail :: rest, k => k :: keptIdxs rest (k + 1)
  | .keep _ _ :: rest, k => k :: keptIdxs rest (k + 1)

theorem canon_none_of_fail (cfg : ConvConfig) (nCh : ℕ) (pedOf : List ℚ → ℚ) :
    ∀ (cols : List (List BinaryEventData)) (k : ℕ),
      (∃ c ∈ cols, processEvent cfg nCh pedOf c = .fail) →
      canonIngest cfg nCh pedOf cols k = none := by
  intro cols
  induction cols with
  | nil => intro k h; simp at h
  | cons col rest ih =>
    intro k h
    simp only [canonIngest]
    rcases hpe : processEvent cfg nCh pedOf col with _ | _ | ⟨ns, chans⟩
    · simp only [hpe]
    · simp only [hpe]
      apply ih
      rcases h with ⟨c, hc, hcf⟩
      rcases List.mem_cons.mp hc with rfl | hc2
      · rw [hpe] at hcf; exact absurd hcf (by simp)
      · exact ⟨c, hc2, hcf⟩
    · simp only [hpe]
      have : canonIngest cfg nCh pedOf rest (k + 1) = none := by
        apply ih
        rcases h with ⟨c, hc, hcf⟩
        rcases List.mem_cons.mp hc with rfl | hc2
        · rw [hpe] at hcf; exact absurd hcf (by simp)
        · exact ⟨c, hc2, hcf⟩
      rw [this]

theorem canon_no_fail (cfg : ConvConfig) (nCh : ℕ) (pedOf : List ℚ → ℚ) :
    ∀ (cols : List (List BinaryEventData)) (k : ℕ),
      (∀ c ∈ cols, processEvent cfg nCh pedOf c ≠ .fail) →
      ∃ evs, canonIngest cfg nCh pedOf cols k = some evs ∧
        evs.map (fun e => e.eventIdx)
          = keptIdxs (cols.map (processEvent cfg nCh pedOf)) k := by
  intro cols
  induction cols with
  | nil => intro k _; exact ⟨[], rfl, rfl⟩
  | cons col rest ih =>
    intro k h
    have hrest : ∀ c ∈ rest, processEvent cfg nCh pedOf c ≠ .fail :=
      fun c hc => h c (by simp [hc])
    obtain ⟨evs, hevs, hmap⟩ := ih (k + 1) hrest
    simp only [canonIngest, List.map_cons]
    rcases hpe : processEvent cfg nCh pedOf col with _ | _ | ⟨ns, chans⟩
    · exact absurd hpe (h col (by simp))
    · simp only [hpe]
      exact ⟨evs, hevs, by rw [hmap]; rfl⟩
    · simp only [hpe, hevs]
      refine ⟨_, rfl, ?_⟩
      simp only [List.map_cons, hmap]
      rfl

theorem keptIdxs_all_keep :
    ∀ (flags : List EventStep) (k0 : ℕ), (∀ f ∈ flags, f ≠ .skipped) →
      keptIdxs flags k0 = (List.range flags.length).map (fun j => k0 + j) := by
  intro flags
  induction flags with
  | nil => intro k0 _; rfl
  | cons f rest ih =>
    intro k0 h
    have hrest : ∀ g ∈ rest, g ≠ EventStep.skipped :=
      fun g hg => h g (by simp [hg])
    have hstep : keptIdxs (f :: rest) k0 = k0 :: keptIdxs rest (k0 + 1) := by
      rcases f with _ | _ | ⟨ns, chans⟩
      · rfl
      · exact absurd rfl (h .skipped (by simp))
      · rfl
    rw [hstep, ih (k0 + 1) hrest]
    simp only [List.length_cons, List.range_succ_eq_map, List.map_cons, List.map_map]
    congr 1
    apply List.map_congr_left
    intro j _
    simp only [Function.comp]
    omega

theorem keptIdxs_one_skip :
    ∀ (flags : List EventStep) (k0 k : ℕ), k < flags.length →
      flags.getD k .fail = .skipped →
      (∀ j : ℕ, j < flags.length → j ≠ k → flags.getD j .fail ≠ .skipped) →
      keptIdxs flags k0
        = ((List.range flags.length).map (fun j => k0 + j)).filter
            (fun x => decide (x ≠ k0 + k)) ∧
      (keptIdxs flags k0).length = flags.length - 1 := by
  intro flags
  induction flags with
  | nil => intro k0 k hk; simp at hk
  | cons f rest ih =>
    intro k0 k hk hsk hkeep
    rcases k with _ | kk
    · -- the skipped event is the head; the rest are all kept
      have hf : f = .skipped := by simpa using hsk
      subst hf
      have hrest : ∀ g ∈ rest, g ≠ EventStep.skipped := by
        intro g hg hgsk
        obtain ⟨j, hj, hjg⟩ := List.mem_iff_getElem.mp hg
        have := hkeep (j + 1) (by simpa using Nat.succ_lt_succ hj) (by omega)
        rw [List.getD_cons_succ, List.getD_eq_getElem?_getD,
          List.getElem?_eq_getElem hj, hjg] at this
        exact this (by simpa using hgsk)
      have hka := keptIdxs_all_keep rest (k0 + 1) hrest
      have hstep : keptIdxs (EventStep.skipped :: rest) k0 = keptIdxs rest (k0 + 1) := rfl
      rw [hstep, hka]
      constructor
      · simp only [List.length_cons, List.range_succ_eq_map, List.map_cons, List.map_map]
        rw [List.filter_cons_of_neg (by simp)]
        rw [List.filter_eq_self.mpr]
        · apply List.map_congr_left
          intro j _
          simp only [Function.comp]
          omega
        · intro x hx
          obtain ⟨j, hj, rfl⟩ := List.mem_map.mp hx
          simp only [Function.comp]
          exact decide_eq_true (by omega)
      · simp
    · -- the skipped event is in the tail; the head is kept
      have hfk : f ≠ .skipped := by
        have := hkeep 0 (by omega) (by omega)
        simpa using this
      have hstep : keptIdxs (f :: rest) k0 = k0 :: keptIdxs rest (k0 + 1) := by
        rcases f with _ | _ | ⟨ns, chans⟩
        · rfl
        · exact absurd rfl hfk
        · rfl
      have hkk : kk < rest.length := by simpa using hk
      have hsk2 : rest.getD kk .fail = .skipped := by simpa using hsk
      have hkeep2 : ∀ j : ℕ, j < rest.length → j ≠ kk → rest.getD j .fail ≠ .skipped := by
        intro j hj hjk
        have := hkeep (j + 1) (by simpa using Nat.succ_lt_succ hj) (by omega)
        simpa using this
      obtain ⟨ihmap, ihlen⟩ := ih (k0 + 1) kk hkk hsk2 hkeep2
      rw [hstep]
      constructor
      · rw [ihmap]
        simp only [List.length_cons, List.range_succ_eq_map, List.map_cons, List.map_map]
        have hhead : List.filter (fun x => decide (x ≠ k0 + (kk + 1)))
            ((k0 + 0) :: List.map ((fun j : ℕ => k0 + j) ∘ Nat.succ)
              (List.range rest.length))
            = (k0 + 0) :: List.filter (fun x => decide (x ≠ k0 + (kk + 1)))
                (List.map ((fun j : ℕ => k0 + j) ∘ Nat.succ) (List.range rest.length)) :=
          List.filter_cons_of_pos (decide_eq_true (by omega))
        rw [hhead]
        have hmapeq : List.map ((fun j : ℕ => k0 + j) ∘ Nat.succ) (List.range rest.length)
            = List.map (fun j : ℕ => k0 + 1 + j) (List.range rest.length) := by
          apply List.map_congr_left
          intro j _
          simp only [Function.comp]
          omega
        rw [hmapeq]
        simp only [show k0 + (kk + 1) = k0 + 1 + kk from by omega]
        simp
      · simp only [List.length_cons, ihlen]
        omega

/-- An `eventCounter` mismatch is one of the consistency issues. -/
theorem counterMismatch_issue (cfg : ConvConfig) (nCh : ℕ)
    (recs : List BinaryEventData) (h : hasCounterMismatch recs = true) :
    hasConsistencyIssue cfg nCh recs = true := by
  rcases recs with _ | ⟨ref, rest⟩
  · simp [hasCounterMismatch] at h
  · unfold hasCounterMismatch at h
    rw [List.any_eq_true] at h
    obtain ⟨r, hr, hcr⟩ := h
    obtain ⟨j, hj, hjr⟩ := List.mem_iff_getElem.mp hr
    unfold hasConsistencyIssue
    rw [List.any_eq_true]
    refine ⟨j, List.mem_range.mpr hj, ?_⟩
    have hget : rest.getD j default = r := by
      rw [List.getD_eq_getElem?_getD, List.getElem?_eq_getElem hj, hjr]
      rfl
    simp only [hget]
    simp only [Bool.or_eq_true]
    left
    left
    exact hcr

/-- `ConvertBinaryToRoot` as the canonical column-wise pass: it fails
exactly when the loop aborted or no event was processed. -/
theorem serialIngest_canon (cfg : ConvConfig) (streams : List (List BinaryEventData)) :
    serialIngest cfg streams
      = if minLenOf streams = 0 then none
        else canonIngest cfg streams.length (serialPedestal cfg.pedestalWindow)
          (alignedCols streams (minLenOf streams)) 0 := by
  unfold serialIngest
  rw [serialLoop_canon cfg streams.length ((streams.map List.length).sum) streams 0 le_rfl]
  rcases hcanon : canonIngest cfg streams.length (serialPedestal cfg.pedestalWindow)
      (alignedCols streams (minLenOf streams)) 0 with _ | evs
  · show (none : Option (List EventOut)) = if minLenOf streams = 0 then none else none
    by_cases h : minLenOf streams = 0
    · rw [if_pos h]
    · rw [if_neg h]
  · show (if 0 + minLenOf streams = 0 then none else some evs)
        = if minLenOf streams = 0 then none else some evs
    by_cases h : minLenOf streams = 0
    · rw [if_pos (by omega), if_pos h]
    · rw [if_neg (by omega), if_neg h]

/-- `ConvertBinaryToRootParallel` (with the parallel-only `max_events`
limit disabled) as the canonical pass followed by consecutive
renumbering: it fails exactly when the run aborted or no event was
committed. -/
theorem parallelIngest_canon (cfg : ConvConfig) (streams : List (List BinaryEventData))
    (hC : 1 ≤ cfg.chunkSize) (hME : cfg.maxEvents < 0) :
    parallelIngest cfg streams
      = match canonIngest cfg streams.length (serialPedestal cfg.pedestalWindow)
          (alignedCols streams (minLenOf streams)) 0 with
        | none => none
        | some evs =>
          if evs.length = 0 then none
          else some ((evs.map stripEv).enum.map (fun ic =>
            { eventIdx := ic.1, nsamples := ic.2.1, channels := ic.2.2 })) := by
  unfold parallelIngest
  rw [parallelRounds_cols cfg streams.length hC hME ((streams.map List.length).sum)
    streams le_rfl]
  rw [← canon_strip cfg streams.length (parallelPedestal cfg.pedestalWindow)
    (alignedCols streams (minLenOf streams)) 0]
  rw [← canonIngest_ped cfg streams.length (alignedCols streams (minLenOf streams)) 0]
  rcases hcanon : canonIngest cfg streams.length (serialPedestal cfg.pedestalWindow)
      (alignedCols streams (minLenOf streams)) 0 with _ | evs
  · rfl
  · show (if (evs.map stripEv).length = 0 then none
        else some ((evs.map stripEv).enum.map (fun ic =>
          ({ eventIdx := ic.1, nsamples := ic.2.1, channels := ic.2.2 } : EventOut))))
      = if evs.length = 0 then none
        else some ((evs.map stripEv).enum.map (fun ic =>
          ({ eventIdx := ic.1, nsamples := ic.2.1, channels := ic.2.2 } : EventOut)))
    simp only [List.length_map]

theorem foldl_min_const (L : ℕ) :
    ∀ (l : List (List BinaryEventData)), (∀ s ∈ l, s.length = L) →
      l.foldl (fun m s => min m s.length) L = L := by
  intro l
  induction l with
  | nil => intro _; rfl
  | cons x xs ih =>
    intro h
    simp only [List.foldl_cons, h x (by simp), min_self]
    exact ih (fun s hs => h s (by simp [hs]))

/-- When every channel holds exactly `L` records the aligned event count
is `L`. -/
theorem minLenOf_const (streams : List (List BinaryEventData)) (L : ℕ)
    (hne : streams ≠ []) (hlen : ∀ s ∈ streams, s.length = L) :
    minLenOf streams = L := by
  rcases streams with _ | ⟨c, rest⟩
  · exact absurd rfl hne
  · show rest.foldl (fun m s => min m s.length) c.length = L
    rw [hlen c (by simp)]
    exact foldl_min_const L rest (fun s hs => hlen s (by simp [hs]))

/-- Under `event_policy=skip` with `nsamples_policy=pad` the per-event body
never aborts: an inconsistent event is skipped, a consistent one kept. -/
theorem processEvent_skip (cfg : ConvConfig) (nCh : ℕ) (pedOf : List ℚ → ℚ)
    (recs : List BinaryEventData)
    (hpol : cfg.eventPolicy = .skip) (hpad : cfg.nsamplesPolicy = .pad) :
    processEvent cfg nCh pedOf recs
      = if hasConsistencyIssue cfg nCh recs = true then EventStep.skipped
        else EventStep.keep (maxSamplesOf recs)
          (recs.map (fun r => buildChannelOut cfg (pedOf r.samples)
            (maxSamplesOf recs) r)) := by
  simp only [processEvent, hpol, hpad]
  simp

/-- Under `event_policy=error` the per-event body aborts on any
consistency issue. -/
theorem processEvent_error_fail (cfg : ConvConfig) (nCh : ℕ) (pedOf : List ℚ → ℚ)
    (recs : List BinaryEventData) (hpol : cfg.eventPolicy = .error)
    (hI : hasConsistencyIssue cfg nCh recs = true) :
    processEvent cfg nCh pedOf recs = EventStep.fail := by
  simp only [processEvent, hpol, hI]
  simp

/-- The consistency check ignores the event policy. -/
theorem hasConsistencyIssue_policy (cfg : ConvConfig) (p : EventPolicy) (nCh : ℕ)
    (recs : List BinaryEventData) :
    hasConsistencyIssue { cfg with eventPolicy := p } nCh recs
      = hasConsistencyIssue cfg nCh recs := rfl

/-- A skip-policy run over equal-length channel streams with exactly one
inconsistent aligned event commits every other event at its original
position. -/
theorem serialIngest_skip_run (cfg : ConvConfig)
    (streams : List (List BinaryEventData)) (L k : ℕ)
    (hne : streams ≠ [])
    (hlen : ∀ s ∈ streams, s.length = L)
    (hk : k < L)
    (hpol : cfg.eventPolicy = .skip)
    (hpad : cfg.nsamplesPolicy = .pad)
    (hbad : hasConsistencyIssue cfg streams.length
      (streams.map (fun s => s.getD k default)) = true)
    (hgood : ∀ j : ℕ, j < L → j ≠ k →
      hasConsistencyIssue cfg streams.length
        (streams.map (fun s => s.getD j default)) = false) :
    ∃ es, serialIngest cfg streams = some es ∧ es.length = L - 1 ∧
      es.map (fun e => e.eventIdx)
        = (List.range L).filter (fun j => decide (j ≠ k)) := by
  have hmin : minLenOf streams = L := minLenOf_const streams L hne hlen
  have hnofail : ∀ c ∈ alignedCols streams L,
      processEvent cfg streams.length (serialPedestal cfg.pedestalWindow) c
        ≠ EventStep.fail := by
    intro c hc
    rw [processEvent_skip cfg streams.length (serialPedestal cfg.pedestalWindow) c hpol hpad]
    by_cases hI : hasConsistencyIssue cfg streams.length c = true
    · rw [if_pos hI]; intro h; cases h
    · rw [if_neg hI]; intro h; cases h
  obtain ⟨evs, hevs, hmap⟩ := canon_no_fail cfg streams.length
    (serialPedestal cfg.pedestalWindow) (alignedCols streams L) 0 hnofail
  have hflags_len : ((alignedCols streams L).map
      (processEvent cfg streams.length (serialPedestal cfg.pedestalWindow))).length = L := by
    rw [List.length_map, alignedCols_length]
  have hflag : ∀ j : ℕ, j < L →
      ((alignedCols streams L).map
        (processEvent cfg streams.length (serialPedestal cfg.pedestalWindow))).getD j
          EventStep.fail
        = processEvent cfg streams.length (serialPedestal cfg.pedestalWindow)
            (streams.map (fun s => s.getD j default)) := by
    intro j hj
    have hjlen : j < (alignedCols streams L).length := by
      rw [alignedCols_length]; exact hj
    have hgetj := alignedCols_getD streams L j hj
    rw [List.getD_eq_getElem?_getD, List.getElem?_eq_getElem hjlen,
      Option.getD_some] at hgetj
    rw [List.getD_eq_getElem?_getD, List.getElem?_map,
      List.getElem?_eq_getElem hjlen]
    simp only [Option.map_some', Option.getD_some]
    rw [hgetj]
  have hskip : ((alignedCols streams L).map
      (processEvent cfg streams.length (serialPedestal cfg.pedestalWindow))).getD k
        EventStep.fail = EventStep.skipped := by
    rw [hflag k hk,
      processEvent_skip cfg streams.length (serialPedestal cfg.pedestalWindow) _ hpol hpad,
      if_pos hbad]
  have hnoskip : ∀ j : ℕ,
      j < ((alignedCols streams L).map
        (processEvent cfg streams.length (serialPedestal cfg.pedestalWindow))).length →
      j ≠ k →
      ((alignedCols streams L).map
        (processEvent cfg streams.length (serialPedestal cfg.pedestalWindow))).getD j
          EventStep.fail ≠ EventStep.skipped := by
    intro j hj hjk
    rw [hflags_len] at hj
    rw [hflag j hj,
      processEvent_skip cfg streams.length (serialPedestal cfg.pedestalWindow) _ hpol hpad,
      if_neg (by rw [hgood j hj hjk]; exact Bool.false_ne_true)]
    intro h; cases h
  obtain ⟨hkmap, hklen⟩ := keptIdxs_one_skip
    ((alignedCols streams L).map
      (processEvent cfg streams.length (serialPedestal cfg.pedestalWindow)))
    0 k (by rw [hflags_len]; exact hk) hskip hnoskip
  refine ⟨evs, ?_, ?_, ?_⟩
  · rw [serialIngest_canon, if_neg (show ¬ minLenOf streams = 0 by omega), hmin, hevs]
  · have hlenmap := congrArg List.length hmap
    simp only [List.length_map] at hlenmap
    rw [hlenmap, hklen, hflags_len]
  · rw [hmap, hkmap, hflags_len]
    simp only [Nat.zero_add]
    have hid : (List.range L).map (fun j : ℕ => j) = List.range L := by simp
    rw [hid]

/-- Concrete two-channel, three-event input with the second event's
counter transposed on channel 1. -/
def exCfg : ConvConfig :=
  { pedTarget := 0, pedestalWindow := 1, nsamplesPolicy := .pad,
    eventPolicy := .skip, specialEnabled := false, specialIndex := -1,
    maxEvents := -1, chunkSize := 1000 }

def exRec (ch ctr : ℕ) : BinaryEventData :=
  { boardId := 0, channelId := ch, eventCounter := ctr, samples := [0] }

def exStreams : List (List BinaryEventData) :=
  [[exRec 0 0, exRec 0 1, exRec 0 2], [exRec 1 0, exRec 1 2, exRec 1 2]]

def exChan (ch ctr : ℕ) : ChannelOut :=
  { boardId := 0, channelId := ch, eventCounter := ctr, pedestal := 0,
    nsamples := 1, raw := [0], ped := [0] }

def exEs : List EventOut :=
  [ { eventIdx := 0, nsamples := 1, channels := [exChan 0 0, exChan 1 0] },
    { eventIdx := 2, nsamples := 1, channels := [exChan 0 2, exChan 1 2] } ]

theorem exCanon : canonIngest exCfg exStreams.length
    (serialPedestal exCfg.pedestalWindow)
    (alignedCols exStreams (minLenOf exStreams)) 0 = some exEs := by
  have hcols : alignedCols exStreams (minLenOf exStreams)
      = [[exRec 0 0, exRec 1 0], [exRec 0 1, exRec 1 2], [exRec 0 2, exRec 1 2]] := rfl
  rw [hcols]
  norm_num [canonIngest, processEvent, hasConsistencyIssue, hasNsMismatch,
    maxSamplesOf, buildChannelOut, serialPedestal, pedCorrect, resizeFill,
    IsSpecialOverrideChannel, exCfg, exRec, exChan, exEs, List.range_succ]
  simp

theorem exSerial : serialIngest exCfg exStreams = some exEs := by
  rw [serialIngest_canon, if_neg (show ¬ minLenOf exStreams = 0 by decide)]
  exact exCanon

theorem exParallel : parallelIngest exCfg exStreams
    = some [ { eventIdx := 0, nsamples := 1, channels := [exChan 0 0, exChan 1 0] },
             { eventIdx := 1, nsamples := 1, channels := [exChan 0 2, exChan 1 2] } ] := by
  rw [parallelIngest_canon exCfg exStreams (by decide) (by decide), exCanon]
  rfl

/-- C2: event-policy commitment semantics.  For equal-length channel
streams whose aligned event `k` has a cross-channel `eventCounter`
mismatch and every other aligned event is consistent: under
`event_policy=error` ingestion fails with zero events committed; under
`event_policy=skip` (with `nsamples_policy=pad`) ingestion succeeds,
commits `totalEvents − 1` events, and the committed event indices are
exactly all positions except the offending `k`. -/
theorem eventPolicy_commit_semantics (cfg : ConvConfig)
    (streams : List (List BinaryEventData)) (L k : ℕ)
    (hne : streams ≠ [])
    (hlen : ∀ s ∈ streams, s.length = L)
    (hk : k < L)
    (hpad : cfg.nsamplesPolicy = .pad)
    (hbad : hasCounterMismatch (streams.map (fun s => s.getD k default)) = true)
    (hgood : ∀ j : ℕ, j < L → j ≠ k →
      hasConsistencyIssue cfg streams.length
        (streams.map (fun s => s.getD j default)) = false) :
    serialIngest { cfg with eventPolicy := EventPolicy.error } streams = none ∧
    ∃ es, serialIngest { cfg with eventPolicy := EventPolicy.skip } streams = some es ∧
      es.length = L - 1 ∧
      es.map (fun e => e.eventIdx)
        = (List.range L).filter (fun j => decide (j ≠ k)) := by
  have hmin : minLenOf streams = L := minLenOf_const streams L hne hlen
  constructor
  · have hIssueE : hasConsistencyIssue { cfg with eventPolicy := EventPolicy.error }
        streams.length (streams.map (fun s => s.getD k default)) = true :=
      counterMismatch_issue _ _ _ hbad
    have hfail := processEvent_error_fail { cfg with eventPolicy := EventPolicy.error }
      streams.length
      (serialPedestal ({ cfg with eventPolicy := EventPolicy.error } : ConvConfig).pedestalWindow)
      (streams.map (fun s => s.getD k default)) rfl hIssueE
    have hnone := canon_none_of_fail { cfg with eventPolicy := EventPolicy.error }
      streams.length
      (serialPedestal ({ cfg with eventPolicy := EventPolicy.error } : ConvConfig).pedestalWindow)
      (alignedCols streams (minLenOf streams)) 0
      ⟨streams.map (fun s => s.getD k default),
        (mem_alignedCols streams (minLenOf streams) _).mpr ⟨k, by omega, rfl⟩, hfail⟩
    rw [serialIngest_canon, hnone]
    by_cases h0 : minLenOf streams = 0
    · rw [if_pos h0]
    · rw [if_neg h0]
  · have hbadS : hasConsistencyIssue { cfg with eventPolicy := EventPolicy.skip }
        streams.length (streams.map (fun s => s.getD k default)) = true :=
      counterMismatch_issue _ _ _ hbad
    have hgoodS : ∀ j : ℕ, j < L → j ≠ k →
        hasConsistencyIssue { cfg with eventPolicy := EventPolicy.skip }
          streams.length (streams.map (fun s => s.getD j default)) = false := by
      intro j hj hjk
      rw [hasConsistencyIssue_policy]
      exact hgood j hj hjk
    exact serialIngest_skip_run { cfg with eventPolicy := EventPolicy.skip }
      streams L k hne hlen hk rfl hpad hbadS hgoodS

/-- C2 witness: on the concrete transposed-counter input the error policy
yields no output and the skip policy commits events 0 and 2 only. -/
theorem eventPolicy_commit_semantics_witness :
    (1 < 3 ∧
      hasCounterMismatch (exStreams.map (fun s => s.getD 1 default)) = true) ∧
    (serialIngest { exCfg with eventPolicy := EventPolicy.error } exStreams = none ∧
      ∃ es, serialIngest { exCfg with eventPolicy := EventPolicy.skip } exStreams = some es ∧
        es.length = 3 - 1 ∧
        es.map (fun e => e.eventIdx)
          = (List.range 3).filter (fun j => decide (j ≠ 1))) :=
  ⟨⟨by decide, by decide⟩,
    eventPolicy_commit_semantics exCfg exStreams 3 1 (by decide) (by decide) (by decide)
      (by decide) (by decide) (by decide)⟩

/-- C9 counterexample: on an input where both paths succeed after one
skipped event, the serial path commits event indices 0 and 2 (original
positions) while the parallel path emits 0 and 1 (consecutive
renumbering), so the per-event output records differ. -/
theorem serial_parallel_eventIdx_counterexample :
    Option.map (List.map (fun e => e.eventIdx)) (serialIngest exCfg exStreams)
      = some [0, 2] ∧
    Option.map (List.map (fun e => e.eventIdx)) (parallelIngest exCfg exStreams)
      = some [0, 1] ∧
    ([0, 2] : List ℕ) ≠ [0, 1] := by
  refine ⟨?_, ?_, by decide⟩
  · rw [exSerial]; rfl
  · rw [exParallel]; rfl

/-- C9 (amended): whenever the serial path succeeds with a non-empty
output and the parallel event limit is disabled, the parallel path
succeeds with the same sequence of per-event records (sample counts and
full per-channel payloads) except that its event indices are renumbered
consecutively from 0 instead of keeping the original positions. -/
theorem serial_parallel_refinement (cfg : ConvConfig)
    (streams : List (List BinaryEventData))
    (hC : 1 ≤ cfg.chunkSize) (hME : cfg.maxEvents < 0)
    (es : List EventOut) (hs : serialIngest cfg streams = some es)
    (hes : es ≠ []) :
    ∃ ps, parallelIngest cfg streams = some ps ∧
      ps.map stripEv = es.map stripEv ∧
      ps.map (fun e => e.eventIdx) = List.range ps.length := by
  rw [serialIngest_canon] at hs
  by_cases hmin : minLenOf streams = 0
  · rw [if_pos hmin] at hs
    exact absurd hs (by simp)
  rw [if_neg hmin] at hs
  have hpar : parallelIngest cfg streams
      = some ((es.map stripEv).enum.map (fun ic =>
          { eventIdx := ic.1, nsamples := ic.2.1, channels := ic.2.2 })) := by
    rw [parallelIngest_canon cfg streams hC hME, hs]
    show (if es.length = 0 then none else _) = _
    rw [if_neg (by simpa using hes)]
  refine ⟨_, hpar, ?_, ?_⟩
  · rw [List.map_map]
    have hcomp : stripEv ∘ (fun ic : ℕ × (ℕ × List ChannelOut) =>
        ({ eventIdx := ic.1, nsamples := ic.2.1, channels := ic.2.2 } : EventOut))
        = Prod.snd := by
      funext ic; rfl
    rw [hcomp, List.enum_map_snd]
  · rw [List.map_map]
    have hcomp : (fun e : EventOut => e.eventIdx) ∘ (fun ic : ℕ × (ℕ × List ChannelOut) =>
        ({ eventIdx := ic.1, nsamples := ic.2.1, channels := ic.2.2 } : EventOut))
        = Prod.fst := by
      funext ic; rfl
    rw [hcomp, List.enum_map_fst]
    simp [List.length_map, List.enum_length]

/-- C9 witness: on the concrete input the serial output is nonempty and
the parallel output matches it up to consecutive renumbering. -/
theorem serial_parallel_refinement_witness :
    (1 ≤ exCfg.chunkSize ∧ exCfg.maxEvents < 0 ∧
      serialIngest exCfg exStreams = some exEs ∧ exEs ≠ []) ∧
    ∃ ps, parallelIngest exCfg exStreams = some ps ∧
      ps.map stripEv = exEs.map stripEv ∧
      ps.map (fun e => e.eventIdx) = List.range ps.length :=
  ⟨⟨by decide, by decide, exSerial, by decide⟩,
    serial_parallel_refinement exCfg exStreams (by decide) (by decide) exEs exSerial
      (by decide)⟩

end DT5742
